import Mathlib

/-!
# Verification of the vibe native text-encoding primitives

A shallow embedding, in Lean 4, of the C++ sources
`src/native/url_parser.cc`, `src/native/json_stringify.cc` and
`src/native/vibe_native.cc` of the `vibe` repository, together with proofs
of the specified properties.

Strings are modelled as lists of bytes (`List Nat`, each element a byte
value).  All functions are executable.
-/

namespace Vibe

/-! ## Hex table (url_parser.cc, initHexTable)

`HEX_TABLE[c]` holds the hex value of the ASCII byte `c`, or the sentinel
`-1` when `c` is not a hex digit. -/

def HEX_TABLE (c : Nat) : Int :=
  if 48 ≤ c ∧ c ≤ 57 then (c : Int) - 48
  else if 97 ≤ c ∧ c ≤ 102 then (c : Int) - 97 + 10
  else if 65 ≤ c ∧ c ≤ 70 then (c : Int) - 65 + 10
  else -1

/-! ## Percent decoder (url_parser.cc, UrlParser::DecodeURIComponent)

The C++ loop walks the input with an index `i`; at a `%` with at least two
following bytes (`i + 2 < len`) and both hex digits valid it emits
`(hi << 4) | lo` and advances by 3; otherwise the byte (or a `+`, decoded
to a space) is handled and the index advances by 1.  The list recursion
below consumes the input in exactly those steps. -/

def DecodeURIComponent : List Nat → List Nat
  | [] => []
  | 37 :: h1 :: h2 :: rest2 =>
    if 0 ≤ HEX_TABLE h1 ∧ 0 ≤ HEX_TABLE h2 then
      (((HEX_TABLE h1).toNat <<< 4) ||| (HEX_TABLE h2).toNat) :: DecodeURIComponent rest2
    else
      37 :: DecodeURIComponent (h1 :: h2 :: rest2)
  | 43 :: rest => 32 :: DecodeURIComponent rest
  | c :: rest => c :: DecodeURIComponent rest

/-- A byte is a valid hexadecimal digit (its `HEX_TABLE` entry is not the
sentinel). -/
def isHexDigit (c : Nat) : Bool := decide (0 ≤ HEX_TABLE c)

/-- The numeric value of a hex-digit byte. -/
def hexVal (c : Nat) : Nat := (HEX_TABLE c).toNat

/-- Reference percent-decoder, written from the specification text
(section 4.4): `%` followed by two valid hex digits becomes the byte
`hi * 16 + lo` consuming three bytes; a `%` not followed by two valid hex
digits, or with fewer than two bytes remaining, passes through verbatim
consuming one byte; `+` becomes the space byte `0x20`; any other byte
passes through verbatim. -/
def refPercentDecode : List Nat → List Nat
  | 37 :: h1 :: h2 :: rest =>
    if isHexDigit h1 ∧ isHexDigit h2 then
      (hexVal h1 * 16 + hexVal h2) :: refPercentDecode rest
    else
      37 :: refPercentDecode (h1 :: h2 :: rest)
  | 43 :: rest => 32 :: refPercentDecode rest
  | c :: rest => c :: refPercentDecode rest
  | [] => []

theorem shiftLeft_or_eq (h l : Nat) (hl : l < 16) : (h <<< 4) ||| l = h * 16 + l := by
  have hsh : h <<< 4 = 2 ^ 4 * h := by
    rw [Nat.shiftLeft_eq, Nat.mul_comm]
  have hl' : l < 2 ^ 4 := by norm_num at hl ⊢; omega
  rw [hsh, ← Nat.mul_add_lt_is_or hl' h]
  ring

theorem hexTable_toNat_lt (c : Nat) : (HEX_TABLE c).toNat < 16 := by
  unfold HEX_TABLE
  split <;> try split <;> try split
  all_goals omega

/-! Step equations for `DecodeURIComponent`. -/

theorem decode_nil : DecodeURIComponent [] = [] := by simp [DecodeURIComponent]

theorem decode_pct (h1 h2 : Nat) (rest : List Nat) :
    DecodeURIComponent (37 :: h1 :: h2 :: rest) =
      if 0 ≤ HEX_TABLE h1 ∧ 0 ≤ HEX_TABLE h2 then
        (((HEX_TABLE h1).toNat <<< 4) ||| (HEX_TABLE h2).toNat) :: DecodeURIComponent rest
      else
        37 :: DecodeURIComponent (h1 :: h2 :: rest) := by
  simp [DecodeURIComponent]

theorem decode_pct_short (rest : List Nat) (h : rest.length < 2) :
    DecodeURIComponent (37 :: rest) = 37 :: DecodeURIComponent rest := by
  match rest, h with
  | [], _ => simp [DecodeURIComponent]
  | [x], _ => simp [DecodeURIComponent]

theorem decode_plus (rest : List Nat) :
    DecodeURIComponent (43 :: rest) = 32 :: DecodeURIComponent rest := by
  simp [DecodeURIComponent]

theorem decode_other (c : Nat) (rest : List Nat) (h37 : c ≠ 37) (h43 : c ≠ 43) :
    DecodeURIComponent (c :: rest) = c :: DecodeURIComponent rest := by
  match rest with
  | [] => simp [DecodeURIComponent, h37, h43]
  | [x] => simp [DecodeURIComponent, h37, h43]
  | x :: y :: r => simp [DecodeURIComponent, h37, h43]

/-! Step equations for `refPercentDecode`. -/

theorem ref_pct (h1 h2 : Nat) (rest : List Nat) :
    refPercentDecode (37 :: h1 :: h2 :: rest) =
      if isHexDigit h1 ∧ isHexDigit h2 then
        (hexVal h1 * 16 + hexVal h2) :: refPercentDecode rest
      else
        37 :: refPercentDecode (h1 :: h2 :: rest) := by
  simp [refPercentDecode]

theorem ref_pct_short (rest : List Nat) (h : rest.length < 2) :
    refPercentDecode (37 :: rest) = 37 :: refPercentDecode rest := by
  match rest, h with
  | [], _ => simp [refPercentDecode]
  | [x], _ => simp [refPercentDecode]

theorem ref_plus (rest : List Nat) :
    refPercentDecode (43 :: rest) = 32 :: refPercentDecode rest := by
  simp [refPercentDecode]

theorem ref_other (c : Nat) (rest : List Nat) (h37 : c ≠ 37) (h43 : c ≠ 43) :
    refPercentDecode (c :: rest) = c :: refPercentDecode rest := by
  match rest with
  | [] => simp [refPercentDecode, h37, h43]
  | [x] => simp [refPercentDecode, h37, h43]
  | x :: y :: r => simp [refPercentDecode, h37, h43]

/-- The source decoder and the specification decoder agree, and the output
never exceeds the input in length. -/
theorem decode_eq_ref_and_length (l : List Nat) :
    DecodeURIComponent l = refPercentDecode l ∧
      (DecodeURIComponent l).length ≤ l.length := by
  induction l using DecodeURIComponent.induct with
  | case1 =>
    simp [DecodeURIComponent, refPercentDecode]
  | case2 h1 h2 rest2 hvalid ih =>
    rw [decode_pct, if_pos hvalid, ref_pct]
    have hhex : (isHexDigit h1 = true ∧ isHexDigit h2 = true) := by
      simp [isHexDigit, hvalid.1, hvalid.2]
    rw [if_pos hhex]
    have hv : ((HEX_TABLE h1).toNat <<< 4) ||| (HEX_TABLE h2).toNat =
        hexVal h1 * 16 + hexVal h2 :=
      shiftLeft_or_eq _ _ (hexTable_toNat_lt h2)
    refine ⟨by rw [hv, ih.1], ?_⟩
    simp only [List.length_cons]
    omega
  | case3 h1 h2 rest2 hinvalid ih =>
    rw [decode_pct, if_neg hinvalid, ref_pct]
    have hhex : ¬ (isHexDigit h1 = true ∧ isHexDigit h2 = true) := by
      simp only [isHexDigit, decide_eq_true_eq]
      tauto
    rw [if_neg hhex]
    refine ⟨by rw [ih.1], ?_⟩
    simp only [List.length_cons] at ih ⊢
    omega
  | case4 rest ih =>
    rw [decode_plus, ref_plus]
    refine ⟨by rw [ih.1], ?_⟩
    simp only [List.length_cons]
    omega
  | case5 c rest hno37 hno43 ih =>
    have h43 : c ≠ 43 := fun h => hno43 h
    by_cases h37 : c = 37
    · subst h37
      have hlen : rest.length < 2 := by
        match rest with
        | [] => simp
        | [x] => simp
        | a :: b :: r => exact absurd (hno37 a b r rfl rfl) (fun h => h)
      rw [decode_pct_short _ hlen, ref_pct_short _ hlen]
      refine ⟨by rw [ih.1], ?_⟩
      simp only [List.length_cons] at ih ⊢
      omega
    · rw [decode_other c rest h37 h43, ref_other c rest h37 h43]
      refine ⟨by rw [ih.1], ?_⟩
      simp only [List.length_cons] at ih ⊢
      omega

/-- Percent-encoder from the specification (section 8, invariant 5):
every non-alphanumeric byte becomes a `%XX` triplet, alphanumeric bytes
pass through. -/
def isAlnumByte (b : Nat) : Bool :=
  (48 ≤ b && b ≤ 57) || (65 ≤ b && b ≤ 90) || (97 ≤ b && b ≤ 122)

def toHexUpper (n : Nat) : Nat := if n < 10 then 48 + n else 55 + n

def percentEncode : List Nat → List Nat
  | [] => []
  | b :: rest =>
    (if isAlnumByte b then [b] else [37, toHexUpper (b / 16), toHexUpper (b % 16)]) ++
      percentEncode rest

theorem hexTable_toHexUpper (n : Nat) (h : n < 16) :
    HEX_TABLE (toHexUpper n) = (n : Int) := by
  unfold HEX_TABLE toHexUpper
  split
  · rw [if_pos (by omega)]
    omega
  · rw [if_neg (by omega), if_neg (by omega), if_pos (by omega)]
    omega

theorem toHexUpper_ne_37 (n : Nat) : toHexUpper n ≠ 37 := by
  unfold toHexUpper
  split <;> omega

theorem toHexUpper_ne_43 (n : Nat) : toHexUpper n ≠ 43 := by
  unfold toHexUpper
  split <;> omega

/-- Decoding a percent-encoding recovers the original byte string. -/
theorem decode_percentEncode (l : List Nat) (h : ∀ b ∈ l, b < 256) :
    DecodeURIComponent (percentEncode l) = l := by
  induction l with
  | nil => simp [percentEncode, decode_nil]
  | cons b rest ih =>
    have hb : b < 256 := h b (List.mem_cons_self b rest)
    have hrest : ∀ x ∈ rest, x < 256 := fun x hx => h x (List.mem_cons_of_mem b hx)
    unfold percentEncode
    by_cases halnum : isAlnumByte b
    · rw [if_pos halnum]
      have h37 : b ≠ 37 := by
        simp only [isAlnumByte, Bool.or_eq_true, Bool.and_eq_true, decide_eq_true_eq]
          at halnum
        omega
      have h43 : b ≠ 43 := by
        simp only [isAlnumByte, Bool.or_eq_true, Bool.and_eq_true, decide_eq_true_eq]
          at halnum
        omega
      rw [List.singleton_append, decode_other b _ h37 h43, ih hrest]
    · rw [if_neg halnum]
      have hhi : HEX_TABLE (toHexUpper (b / 16)) = ((b / 16 : Nat) : Int) :=
        hexTable_toHexUpper _ (by omega)
      have hlo : HEX_TABLE (toHexUpper (b % 16)) = ((b % 16 : Nat) : Int) :=
        hexTable_toHexUpper _ (by omega)
      have : DecodeURIComponent
          (37 :: toHexUpper (b / 16) :: toHexUpper (b % 16) :: percentEncode rest) =
          b :: DecodeURIComponent (percentEncode rest) := by
        rw [decode_pct, if_pos (by rw [hhi, hlo]; omega)]
        congr 1
        rw [shiftLeft_or_eq _ _ (hexTable_toNat_lt _), hhi, hlo]
        simp only [Int.toNat_ofNat]
        omega
      simpa [this] using congrArg (b :: ·) (ih hrest)

/-! ## Query splitting (url_parser.cc, UrlParser::Parse and ParseQuery)

Both query loops walk the byte range, cutting a segment at each `&`
(`memchr(pos, '&', ...)`), locating the first `=` inside the segment
(`memchr(pos, '=', pairLen)`), and keeping the pair only when `=` exists at
an offset greater than zero.  Key and value are percent-decoded and the
pair is assigned into the mapping, overwriting any previous value for the
key. -/

/-- The contribution of one `&`-delimited segment: nothing if the segment
has no `=` or starts with `=`, otherwise the decoded key/value pair. -/
def segContribution (seg : List Nat) : List (List Nat × List Nat) :=
  let key := seg.takeWhile (fun c => c != 61)
  match seg.dropWhile (fun c => c != 61) with
  | [] => []
  | _ :: v => if key = [] then [] else [(DecodeURIComponent key, DecodeURIComponent v)]

/-- The kept key/value pairs of a query string, in segment order (the
`while (pos < end)` loop). -/
def queryPairs (s : List Nat) : List (List Nat × List Nat) :=
  if h : s = [] then []
  else
    segContribution (s.takeWhile (fun c => c != 38)) ++
      queryPairs ((s.dropWhile (fun c => c != 38)).tail)
termination_by s.length
decreasing_by
  have h1 : (s.dropWhile (fun c => c != 38)).length ≤ s.length :=
    List.Sublist.length_le (List.dropWhile_sublist _)
  have h2 : 0 < s.length := by
    cases s with
    | nil => exact absurd rfl h
    | cons a t => simp
  simp only [List.length_tail]
  omega

/-- `map[key] = value` on an association list: overwrite the existing
entry if the key is present, otherwise append the pair. -/
def mapAssign (m : List (List Nat × List Nat)) (k v : List Nat) :
    List (List Nat × List Nat) :=
  if m.any (fun p => p.1 = k) then
    m.map (fun p => if p.1 = k then (p.1, v) else p)
  else
    m ++ [(k, v)]

/-- The query mapping built by the parser loops. -/
def queryMap (s : List Nat) : List (List Nat × List Nat) :=
  (queryPairs s).foldl (fun m p => mapAssign m p.1 p.2) []

/-- Lookup in an association list (first match). -/
def lookupKey (m : List (List Nat × List Nat)) (k : List Nat) : Option (List Nat) :=
  match m with
  | [] => none
  | p :: rest => if p.1 = k then some p.2 else lookupKey rest k

/-- The mapping described by the specification: among the pairs carrying
the given decoded key, the value of the last one is retained. -/
def lastWins (pairs : List (List Nat × List Nat)) (k : List Nat) : Option (List Nat) :=
  match pairs with
  | [] => none
  | p :: rest => (lastWins rest k).or (if p.1 = k then some p.2 else none)

theorem lookupKey_append (m1 m2 : List (List Nat × List Nat)) (k : List Nat) :
    lookupKey (m1 ++ m2) k = (lookupKey m1 k).or (lookupKey m2 k) := by
  induction m1 with
  | nil => simp [lookupKey]
  | cons p rest ih =>
    by_cases hp : p.1 = k
    · simp [lookupKey, hp, Option.or]
    · simp [lookupKey, hp, ih]

theorem lookupKey_eq_none (m : List (List Nat × List Nat)) (k : List Nat)
    (h : ∀ p ∈ m, p.1 ≠ k) : lookupKey m k = none := by
  induction m with
  | nil => simp [lookupKey]
  | cons q rest ih =>
    simp only [lookupKey, if_neg (h q (List.mem_cons_self q rest))]
    exact ih fun p hp => h p (List.mem_cons_of_mem q hp)

theorem lookupKey_map_overwrite (m : List (List Nat × List Nat)) (k v : List Nat)
    (hany : m.any (fun p => p.1 = k) = true) :
    lookupKey (m.map (fun p => if p.1 = k then (p.1, v) else p)) k = some v := by
  induction m with
  | nil => simp at hany
  | cons q rest ih =>
    by_cases hq : q.1 = k
    · simp [lookupKey, hq]
    · simp only [List.any_cons, Bool.or_eq_true, decide_eq_true_eq] at hany
      have hrest : rest.any (fun p => p.1 = k) = true := by
        rcases hany with h | h
        · exact absurd h hq
        · exact h
      simp only [List.map_cons, if_neg hq, lookupKey, if_neg hq]
      exact ih hrest

theorem lookupKey_mapAssign_self (m : List (List Nat × List Nat)) (k v : List Nat) :
    lookupKey (mapAssign m k v) k = some v := by
  unfold mapAssign
  by_cases hany : m.any (fun p => p.1 = k)
  · rw [if_pos hany]
    exact lookupKey_map_overwrite m k v hany
  · rw [if_neg hany, lookupKey_append]
    simp only [List.any_eq_true, decide_eq_true_eq] at hany
    push_neg at hany
    rw [lookupKey_eq_none m k hany]
    simp [lookupKey, Option.or]

theorem lookupKey_map_overwrite_ne (m : List (List Nat × List Nat))
    (k1 v k : List Nat) (hne : k1 ≠ k) :
    lookupKey (m.map (fun p => if p.1 = k1 then (p.1, v) else p)) k = lookupKey m k := by
  induction m with
  | nil => simp
  | cons q rest ih =>
    by_cases hq : q.1 = k1
    · have hqk : q.1 ≠ k := hq ▸ hne
      simp only [List.map_cons, if_pos hq, lookupKey, if_neg hqk]
      exact ih
    · simp only [List.map_cons, if_neg hq, lookupKey]
      by_cases hqk : q.1 = k
      · simp [hqk]
      · simp only [if_neg hqk]
        exact ih

theorem lookupKey_mapAssign_other (m : List (List Nat × List Nat))
    (k1 v k : List Nat) (hne : k1 ≠ k) :
    lookupKey (mapAssign m k1 v) k = lookupKey m k := by
  unfold mapAssign
  by_cases hany : m.any (fun p => p.1 = k1)
  · rw [if_pos hany]
    exact lookupKey_map_overwrite_ne m k1 v k hne
  · rw [if_neg hany, lookupKey_append]
    have h2 : lookupKey [(k1, v)] k = none := by
      simp [lookupKey, hne]
    rw [h2]
    cases lookupKey m k <;> simp [Option.or]

theorem foldl_mapAssign_lookup (pairs : List (List Nat × List Nat))
    (m : List (List Nat × List Nat)) (k : List Nat) :
    lookupKey (pairs.foldl (fun m p => mapAssign m p.1 p.2) m) k =
      (lastWins pairs k).or (lookupKey m k) := by
  induction pairs generalizing m with
  | nil => simp [lastWins, Option.or]
  | cons p ps ih =>
    simp only [List.foldl_cons, lastWins]
    rw [ih]
    by_cases hp : p.1 = k
    · subst hp
      rw [lookupKey_mapAssign_self, if_pos rfl, Option.or_assoc]
      rfl
    · rw [lookupKey_mapAssign_other _ _ _ _ hp, if_neg hp, Option.or_none]

/-- Last write wins: looking up a key in the parsed query mapping yields
the value contributed by the last segment carrying that decoded key. -/
theorem queryMap_lookup (s k : List Nat) :
    lookupKey (queryMap s) k = lastWins (queryPairs s) k := by
  unfold queryMap
  rw [foldl_mapAssign_lookup]
  simp [lookupKey, Option.or_none]

/-! Helper facts about `takeWhile` and `dropWhile`. -/

theorem takeWhile_all {α : Type} (p : α → Bool) (l : List α)
    (h : ∀ x ∈ l, p x = true) : l.takeWhile p = l := by
  induction l with
  | nil => simp
  | cons a t ih =>
    rw [List.takeWhile_cons, if_pos (h a (List.mem_cons_self a t))]
    rw [ih fun x hx => h x (List.mem_cons_of_mem a hx)]

theorem dropWhile_all {α : Type} (p : α → Bool) (l : List α)
    (h : ∀ x ∈ l, p x = true) : l.dropWhile p = [] := by
  induction l with
  | nil => simp
  | cons a t ih =>
    rw [List.dropWhile_cons_of_pos (h a (List.mem_cons_self a t))]
    exact ih fun x hx => h x (List.mem_cons_of_mem a hx)

theorem takeWhile_append_stop {α : Type} (p : α → Bool) (l1 l2 : List α) (c : α)
    (h : ∀ x ∈ l1, p x = true) (hc : p c = false) :
    (l1 ++ c :: l2).takeWhile p = l1 := by
  induction l1 with
  | nil => simp [List.takeWhile_cons, hc]
  | cons a t ih =>
    simp only [List.cons_append, List.takeWhile_cons,
      h a (List.mem_cons_self a t), if_true]
    rw [ih fun x hx => h x (List.mem_cons_of_mem a hx)]

theorem dropWhile_append_stop {α : Type} (p : α → Bool) (l1 l2 : List α) (c : α)
    (h : ∀ x ∈ l1, p x = true) (hc : p c = false) :
    (l1 ++ c :: l2).dropWhile p = c :: l2 := by
  induction l1 with
  | nil => simp [List.dropWhile_cons, hc]
  | cons a t ih =>
    simp only [List.cons_append,
      List.dropWhile_cons_of_pos (h a (List.mem_cons_self a t))]
    exact ih fun x hx => h x (List.mem_cons_of_mem a hx)

/-! Characterization of the contribution of a segment. -/

theorem segContribution_no_eq (seg : List Nat) (h : 61 ∉ seg) :
    segContribution seg = [] := by
  unfold segContribution
  rw [dropWhile_all _ seg fun x hx => by
    simp only [bne_iff_ne, ne_eq, decide_eq_true_eq]
    exact fun hx61 => h (hx61 ▸ hx)]

theorem segContribution_empty_key (v : List Nat) :
    segContribution (61 :: v) = [] := by
  unfold segContribution
  have h61 : ((61 : Nat) != 61) = false := by simp
  rw [List.dropWhile_cons_of_neg (by simp [h61]), List.takeWhile_cons, h61]
  simp

theorem segContribution_pair (k v : List Nat) (hk61 : 61 ∉ k) (hke : k ≠ []) :
    segContribution (k ++ 61 :: v) = [(DecodeURIComponent k, DecodeURIComponent v)] := by
  unfold segContribution
  have hall : ∀ x ∈ k, (x != 61) = true := fun x hx => by
    simp only [bne_iff_ne, ne_eq, decide_eq_true_eq]
    exact fun hx61 => hk61 (hx61 ▸ hx)
  rw [takeWhile_append_stop _ k v 61 hall (by simp),
    dropWhile_append_stop _ k v 61 hall (by simp)]
  simp [hke]

/-- A query consisting of a single raw pair (no raw `&` or `=` inside key
or value) parses to exactly that decoded pair. -/
theorem queryPairs_single (k v : List Nat)
    (hk38 : 38 ∉ k) (hk61 : 61 ∉ k) (hv38 : 38 ∉ v)
    (hke : k ≠ []) :
    queryPairs (k ++ 61 :: v) = [(DecodeURIComponent k, DecodeURIComponent v)] := by
  have hne : k ++ 61 :: v ≠ [] := by simp
  have hall : ∀ x ∈ k ++ 61 :: v, (x != 38) = true := by
    intro x hx
    simp only [bne_iff_ne, ne_eq, decide_eq_true_eq]
    intro hx38
    subst hx38
    rcases List.mem_append.mp hx with h | h
    · exact hk38 h
    · rcases List.mem_cons.mp h with h | h
      · omega
      · exact hv38 h
  have hnil : queryPairs [] = [] := by rw [queryPairs]; simp
  rw [queryPairs, dif_neg hne, takeWhile_all _ _ hall, dropWhile_all _ _ hall]
  simp only [List.tail_nil]
  rw [hnil, List.append_nil]
  exact segContribution_pair k v hk61 hke

/-! ## Output buffer (json_stringify.cc, FastStringBuilder)

The builder owns a byte vector of size `cap` (the constructor makes it
4096) and a committed position `pos`.  `ensureCapacity(needed)` resizes the
vector to `(pos_ + needed) * 2` whenever `pos_ + needed` exceeds the
current size; appends then copy the new bytes at `pos_`.  The committed
bytes are modelled directly as a list (`data`, with `pos = data.length`);
resizing preserves them, exactly as `std::vector::resize` preserves the
prefix. -/

structure FastStringBuilder where
  cap : Nat
  data : List Nat

def FastStringBuilder.new : FastStringBuilder := { cap := 4096, data := [] }

/-- The capacity after `ensureCapacity(needed)`. -/
def FastStringBuilder.ensure (b : FastStringBuilder) (needed : Nat) : Nat :=
  if b.data.length + needed > b.cap then (b.data.length + needed) * 2 else b.cap

/-- `append(str, len)`: grow if needed, then commit the bytes. -/
def FastStringBuilder.appendBytes (b : FastStringBuilder) (bs : List Nat) :
    FastStringBuilder :=
  { cap := b.ensure bs.length, data := b.data ++ bs }

/-- The committed invariant `pos ≤ capacity` is preserved by appends, the
new capacity follows the `(pos + needed) * 2` growth rule, and no
committed byte is lost. -/
theorem appendBytes_spec (b : FastStringBuilder) (bs : List Nat) :
    (b.appendBytes bs).data = b.data ++ bs ∧
      (b.appendBytes bs).data.length ≤ (b.appendBytes bs).cap ∧
      (b.appendBytes bs).cap =
        (if b.data.length + bs.length > b.cap
         then (b.data.length + bs.length) * 2 else b.cap) := by
  refine ⟨rfl, ?_, rfl⟩
  unfold FastStringBuilder.appendBytes FastStringBuilder.ensure
  simp only [List.length_append]
  split <;> omega

/-! ## Decimal digits

`natDigitsAux` produces the base-10 digits of `n` little-endian (fuel
bounded, structurally recursive); `natDigits` is the usual big-endian
digit list. -/

def natDigitsAux : Nat → Nat → List Nat
  | 0, _ => []
  | _ + 1, 0 => []
  | f + 1, n + 1 => ((n + 1) % 10) :: natDigitsAux f ((n + 1) / 10)

def natDigits (n : Nat) : List Nat :=
  if n = 0 then [0] else (natDigitsAux n n).reverse

theorem natDigitsAux_zero (f : Nat) : natDigitsAux f 0 = [] := by
  cases f <;> rfl

theorem natDigitsAux_lt10 (f n : Nat) : ∀ d ∈ natDigitsAux f n, d < 10 := by
  induction f generalizing n with
  | zero => simp [natDigitsAux]
  | succ f ih =>
    cases n with
    | zero => simp [natDigitsAux]
    | succ m =>
      intro d hd
      simp only [natDigitsAux, List.mem_cons] at hd
      rcases hd with h | h
      · omega
      · exact ih _ d h

theorem natDigitsAux_len (f n : Nat) (h1 : 1 ≤ n) (h2 : n ≤ f) :
    1 ≤ (natDigitsAux f n).length ∧
      10 ^ ((natDigitsAux f n).length - 1) ≤ n ∧
      n < 10 ^ (natDigitsAux f n).length := by
  induction f generalizing n with
  | zero => omega
  | succ f ih =>
    match n, h1 with
    | m + 1, _ =>
      by_cases hsmall : m + 1 < 10
      · have hq : (m + 1) / 10 = 0 := by omega
        simp only [natDigitsAux, hq, natDigitsAux_zero, List.length_cons,
          List.length_nil]
        norm_num
        omega
      · have hq1 : 1 ≤ (m + 1) / 10 := by omega
        have hq2 : (m + 1) / 10 ≤ f := by omega
        obtain ⟨ihl, ihlo, ihhi⟩ := ih ((m + 1) / 10) hq1 hq2
        set L := (natDigitsAux f ((m + 1) / 10)).length with hL
        simp only [natDigitsAux, List.length_cons, ← hL]
        refine ⟨by omega, ?_, ?_⟩
        · have hstep : 10 ^ (L - 1 + 1) ≤ ((m + 1) / 10) * 10 := by
            rw [pow_succ]
            exact Nat.mul_le_mul_right 10 ihlo
          have hLL : L - 1 + 1 = L := by omega
          rw [hLL] at hstep
          have hfin : 10 ^ L ≤ m + 1 := le_trans hstep (by omega)
          simpa using hfin
        · have h10 : m + 1 < ((m + 1) / 10 + 1) * 10 := by omega
          have hmul : ((m + 1) / 10 + 1) * 10 ≤ 10 ^ L * 10 :=
            Nat.mul_le_mul_right 10 (by omega)
          calc m + 1 < ((m + 1) / 10 + 1) * 10 := h10
            _ ≤ 10 ^ L * 10 := hmul
            _ = 10 ^ (L + 1) := by rw [pow_succ]

theorem natDigitsAux_head (f n : Nat) (h1 : 1 ≤ n) (h2 : n ≤ f) :
    ∃ d t, (natDigitsAux f n).reverse = d :: t ∧ 1 ≤ d ∧ d < 10 ∧
      ∀ x ∈ t, x < 10 := by
  induction f generalizing n with
  | zero => omega
  | succ f ih =>
    match n, h1 with
    | m + 1, _ =>
      by_cases hsmall : m + 1 < 10
      · have hq : (m + 1) / 10 = 0 := by omega
        refine ⟨(m + 1) % 10, [], ?_, by omega, by omega, by simp⟩
        simp [natDigitsAux, hq, natDigitsAux_zero]
      · have hq1 : 1 ≤ (m + 1) / 10 := by omega
        have hq2 : (m + 1) / 10 ≤ f := by omega
        obtain ⟨d, t, hrev, hd1, hd2, ht⟩ := ih ((m + 1) / 10) hq1 hq2
        refine ⟨d, t ++ [(m + 1) % 10], ?_, hd1, hd2, ?_⟩
        · simp only [natDigitsAux, List.reverse_cons, hrev, List.cons_append]
        · intro x hx
          rcases List.mem_append.mp hx with h | h
          · exact ht x h
          · simp only [List.mem_singleton] at h
            omega

/-- For `1 ≤ n`, `natDigits n` starts with a nonzero digit and all its
digits are below 10. -/
theorem natDigits_head (n : Nat) (h : 1 ≤ n) :
    ∃ d t, natDigits n = d :: t ∧ 1 ≤ d ∧ d < 10 ∧ ∀ x ∈ t, x < 10 := by
  unfold natDigits
  rw [if_neg (by omega)]
  exact natDigitsAux_head n n h (le_refl n)

theorem natDigits_lt10 (n : Nat) : ∀ d ∈ natDigits n, d < 10 := by
  unfold natDigits
  split
  · simp
  · intro d hd
    exact natDigitsAux_lt10 n n d (List.mem_reverse.mp hd)

/-- The digit count is determined by the power-of-ten bracket. -/
theorem natDigits_length (n k : Nat) (h1 : 1 ≤ k) (hlo : 10 ^ (k - 1) ≤ n)
    (hhi : n < 10 ^ k) : (natDigits n).length = k := by
  have hn : 1 ≤ n := by
    have : 1 ≤ 10 ^ (k - 1) := Nat.one_le_pow _ _ (by omega)
    omega
  unfold natDigits
  rw [if_neg (by omega), List.length_reverse]
  obtain ⟨hl, hlo2, hhi2⟩ := natDigitsAux_len n n hn (le_refl n)
  set L := (natDigitsAux n n).length
  by_contra hne
  rcases Nat.lt_or_ge L k with hlt | hge
  · have : 10 ^ L ≤ 10 ^ (k - 1) := Nat.pow_le_pow_right (by omega) (by omega)
    omega
  · have hgt : k < L := by omega
    have : 10 ^ k ≤ 10 ^ (L - 1) := Nat.pow_le_pow_right (by omega) (by omega)
    omega

/-! ## `%.15g` formatting (json_stringify.cc, FastStringBuilder::appendDouble)

`appendDouble` renders a finite double with `snprintf("%.15g", value)`.
A finite double is an exact rational, and `%.15g` of a nonzero value `q`
works on `|q| = a / b` as follows: round to 15 significant decimal digits
(mantissa `m` with `10^14 ≤ m < 10^15`, decimal exponent `X`, ties to
even), then print fixed notation when `-4 ≤ X < 15` (trailing fractional
zeros stripped, decimal point dropped when no fraction remains) and
scientific notation `d.ddd...e±XX` (exponent of at least two digits)
otherwise.  The two scaling loops below bring the fraction `a / b` into
the mantissa window, tracking the decimal exponent. -/

def scaleDown : Nat → Nat → Nat → Int → Nat × Int
  | 0, _, b, x => (b, x)
  | f + 1, a, b, x =>
    if 10 ^ 15 * b ≤ a then scaleDown f a (b * 10) (x + 1) else (b, x)

def scaleUp : Nat → Nat → Nat → Int → Nat × Int
  | 0, a, _, x => (a, x)
  | f + 1, a, b, x =>
    if a < 10 ^ 14 * b then scaleUp f (a * 10) b (x - 1) else (a, x)

theorem scaleDown_lt (f : Nat) : ∀ a b : Nat, ∀ x : Int,
    a < 10 ^ 15 * (b * 10 ^ f) → a < 10 ^ 15 * (scaleDown f a b x).1 := by
  induction f with
  | zero => intro a b x h; simpa [scaleDown] using h
  | succ f ih =>
    intro a b x h
    unfold scaleDown
    split
    · refine ih a (b * 10) (x + 1) ?_
      rw [pow_succ] at h
      calc a < 10 ^ 15 * (b * (10 ^ f * 10)) := h
        _ = 10 ^ 15 * (b * 10 * 10 ^ f) := by ring
    · omega

theorem scaleDown_pos (f : Nat) : ∀ a b : Nat, ∀ x : Int,
    1 ≤ b → 1 ≤ (scaleDown f a b x).1 := by
  induction f with
  | zero => intro a b x h; simpa [scaleDown] using h
  | succ f ih =>
    intro a b x h
    unfold scaleDown
    split
    · exact ih a (b * 10) (x + 1) (by omega)
    · exact h

theorem scaleUp_ge (f : Nat) : ∀ a b : Nat, ∀ x : Int,
    10 ^ 14 * b ≤ a * 10 ^ f → 10 ^ 14 * b ≤ (scaleUp f a b x).1 := by
  induction f with
  | zero => intro a b x h; simpa [scaleUp] using h
  | succ f ih =>
    intro a b x h
    unfold scaleUp
    split
    · refine ih (a * 10) b (x - 1) ?_
      rw [pow_succ] at h
      calc 10 ^ 14 * b ≤ a * (10 ^ f * 10) := h
        _ = a * 10 * 10 ^ f := by ring
    · omega

theorem scaleUp_lt (f : Nat) : ∀ a b : Nat, ∀ x : Int,
    a < 10 ^ 15 * b → (scaleUp f a b x).1 < 10 ^ 15 * b := by
  induction f with
  | zero => intro a b x h; simpa [scaleUp] using h
  | succ f ih =>
    intro a b x h
    unfold scaleUp
    split
    · rename_i hlt
      refine ih (a * 10) b (x - 1) ?_
      calc a * 10 < 10 ^ 14 * b * 10 := by omega
        _ = 10 ^ 15 * b := by ring
    · exact h

/-- Round to nearest, ties to even — the rounding used by `printf` for
the decimal conversion of an exact binary value. -/
def roundHalfEven (u v : Nat) : Nat :=
  if v < 2 * (u % v) then u / v + 1
  else if 2 * (u % v) < v then u / v
  else if (u / v) % 2 = 1 then u / v + 1 else u / v

theorem roundHalfEven_bounds (u v : Nat) :
    u / v ≤ roundHalfEven u v ∧ roundHalfEven u v ≤ u / v + 1 := by
  unfold roundHalfEven
  split
  · omega
  · split
    · omega
    · split <;> omega

/-- The 15-digit mantissa and decimal exponent of `a / b`. -/
def g15mantissa (a b : Nat) : Nat × Int :=
  let p := scaleDown (a + 1) a b 14
  let q := scaleUp (p.1 + 15) a p.1 p.2
  let m0 := roundHalfEven q.1 p.1
  if m0 = 10 ^ 15 then (10 ^ 14, q.2 + 1) else (m0, q.2)

theorem g15mantissa_bounds (a b : Nat) (ha : 1 ≤ a) (hb : 1 ≤ b) :
    10 ^ 14 ≤ (g15mantissa a b).1 ∧ (g15mantissa a b).1 < 10 ^ 15 := by
  rcases hsd : scaleDown (a + 1) a b 14 with ⟨b1, x1⟩
  rcases hsu : scaleUp (b1 + 15) a b1 x1 with ⟨a1, x2⟩
  have hdef : g15mantissa a b =
      if roundHalfEven a1 b1 = 10 ^ 15 then ((10 : Nat) ^ 14, x2 + 1)
      else (roundHalfEven a1 b1, x2) := by
    unfold g15mantissa
    rw [hsd]
    simp only
    rw [hsu]
  have hb1 : 1 ≤ b1 := by
    have := scaleDown_pos (a + 1) a b 14 hb
    rw [hsd] at this
    exact this
  have hfuel : a < 10 ^ 15 * (b * 10 ^ (a + 1)) := by
    have h1 : a < 10 ^ a := Nat.lt_pow_self (by omega) a
    have h2 : (10 : Nat) ^ a ≤ 10 ^ (a + 1) := Nat.pow_le_pow_right (by omega) (by omega)
    have h3 : (10 : Nat) ^ (a + 1) ≤ (10 ^ 15 * b) * 10 ^ (a + 1) :=
      Nat.le_mul_of_pos_left _ (by positivity)
    have h4 : (10 ^ 15 * b) * 10 ^ (a + 1) = 10 ^ 15 * (b * 10 ^ (a + 1)) := by ring
    omega
  have hlt : a < 10 ^ 15 * b1 := by
    have := scaleDown_lt (a + 1) a b 14 hfuel
    rw [hsd] at this
    exact this
  have hfuel2 : 10 ^ 14 * b1 ≤ a * 10 ^ (b1 + 15) := by
    have h1 : b1 < 10 ^ b1 := Nat.lt_pow_self (by omega) _
    have h2 : 10 ^ 14 * b1 ≤ 10 ^ 14 * 10 ^ b1 :=
      Nat.mul_le_mul_left _ (by omega)
    have h3 : (10 : Nat) ^ 14 * 10 ^ b1 = 10 ^ (14 + b1) := (pow_add 10 14 b1).symm
    have h4 : (10 : Nat) ^ (14 + b1) ≤ 10 ^ (b1 + 15) :=
      Nat.pow_le_pow_right (by omega) (by omega)
    have h5 : (10 : Nat) ^ (b1 + 15) ≤ a * 10 ^ (b1 + 15) :=
      Nat.le_mul_of_pos_left _ (by omega)
    omega
  have hge : 10 ^ 14 * b1 ≤ a1 := by
    have := scaleUp_ge (b1 + 15) a b1 x1 hfuel2
    rw [hsu] at this
    exact this
  have hlt2 : a1 < 10 ^ 15 * b1 := by
    have := scaleUp_lt (b1 + 15) a b1 x1 hlt
    rw [hsu] at this
    exact this
  have hd1 : 10 ^ 14 ≤ a1 / b1 :=
    (Nat.le_div_iff_mul_le (by omega)).mpr hge
  have hd2 : a1 / b1 < 10 ^ 15 :=
    (Nat.div_lt_iff_lt_mul (by omega)).mpr hlt2
  obtain ⟨hr1, hr2⟩ := roundHalfEven_bounds a1 b1
  rw [hdef]
  split
  · exact ⟨le_refl _, by norm_num⟩
  · rename_i hne
    have hle : roundHalfEven a1 b1 ≤ 10 ^ 15 := by omega
    exact ⟨by omega, lt_of_le_of_ne hle hne⟩

/-- Digit values to ASCII digit bytes. -/
def digitChars (ds : List Nat) : List Nat := ds.map (fun d => d + 48)

/-- Strip trailing zero digits (the `%g` removal of trailing fractional
zeros). -/
def stripZeros (l : List Nat) : List Nat :=
  (l.reverse.dropWhile (fun d => d == 0)).reverse

/-- Exponent field of `%g` scientific notation: sign, then at least two
digits. -/
def expChars (x : Int) : List Nat :=
  (if 0 ≤ x then [43] else [45]) ++
    digitChars (if x.natAbs < 10 then [0, x.natAbs] else natDigits x.natAbs)

/-- Print a rounded value `m × 10 ^ (x - 14)` with `10^14 ≤ m < 10^15`:
fixed notation for `-4 ≤ x < 15`, scientific otherwise, trailing
fractional zeros stripped and the decimal point dropped when no fraction
remains. -/
def g15render (m : Nat) (x : Int) : List Nat :=
  if -4 ≤ x ∧ x < 15 then
    if 0 ≤ x then
      digitChars ((natDigits m).take (x.toNat + 1)) ++
        (if stripZeros ((natDigits m).drop (x.toNat + 1)) = [] then []
         else 46 :: digitChars (stripZeros ((natDigits m).drop (x.toNat + 1))))
    else
      [48, 46] ++ List.replicate ((-x).toNat - 1) 48 ++
        digitChars (stripZeros (natDigits m))
  else
    digitChars ((natDigits m).take 1) ++
      (if stripZeros ((natDigits m).drop 1) = [] then []
       else 46 :: digitChars (stripZeros ((natDigits m).drop 1))) ++
      101 :: expChars x

/-- `%.15g` of the positive rational `a / b` (`a, b ≥ 1`). -/
def g15pos (a b : Nat) : List Nat :=
  g15render (g15mantissa a b).1 (g15mantissa a b).2

/-- `%.15g` of a rational (`appendDouble`). -/
def g15 (q : Rat) : List Nat :=
  if q = 0 then [48]
  else if q < 0 then 45 :: g15pos q.num.natAbs q.den
  else g15pos q.num.natAbs q.den

/-- `snprintf("%ld", value)` (`appendInt`): decimal digits with a leading
minus sign for negatives. -/
def intChars (i : Int) : List Nat :=
  if i < 0 then 45 :: digitChars (natDigits i.natAbs)
  else digitChars (natDigits i.natAbs)

/-! ## Numbers (json_stringify.cc, stringifyValueFast number branch)

A double is `NaN`, `+Inf`, `-Inf`, or a finite value — and every finite
double is an exact rational.  The number branch emits `null` for
non-finite values, the `%ld` integer form for integral values inside the
safe-integer range `[-(2^53 - 1), 2^53 - 1]`, and the `%.15g` form
otherwise. -/

inductive JNum where
  | nan : JNum
  | posInf : JNum
  | negInf : JNum
  | finite : Rat → JNum
deriving DecidableEq

def nullBytes : List Nat := [110, 117, 108, 108]

def stringifyNumber : JNum → List Nat
  | .nan => nullBytes
  | .posInf => nullBytes
  | .negInf => nullBytes
  | .finite q =>
    if q.den = 1 ∧ -(9007199254740991 : Int) ≤ q.num ∧
        q.num ≤ (9007199254740991 : Int) then
      intChars q.num
    else
      g15 q

/-! ## JSON number token grammar (RFC 8259 section 6)

`number = [ minus ] int [ frac ] [ exp ]`, over bytes. -/

def IntPartTok (l : List Nat) : Prop :=
  l = [48] ∨ (∃ d t, l = d :: t ∧ 49 ≤ d ∧ d ≤ 57 ∧ ∀ x ∈ t, 48 ≤ x ∧ x ≤ 57)

def FracPartTok (l : List Nat) : Prop :=
  l = [] ∨ (∃ t, l = 46 :: t ∧ t ≠ [] ∧ ∀ x ∈ t, 48 ≤ x ∧ x ≤ 57)

def ExpPartTok (l : List Nat) : Prop :=
  l = [] ∨ (∃ s t, l = 101 :: (s ++ t) ∧ (s = [] ∨ s = [43] ∨ s = [45]) ∧
    t ≠ [] ∧ ∀ x ∈ t, 48 ≤ x ∧ x ≤ 57)

/-- A JSON number token without leading minus sign. -/
def NumCore (l : List Nat) : Prop :=
  ∃ ip f e, l = ip ++ f ++ e ∧ IntPartTok ip ∧ FracPartTok f ∧ ExpPartTok e

/-- A JSON number token. -/
def JNumTok (l : List Nat) : Prop :=
  ∃ sign core, l = sign ++ core ∧ (sign = [] ∨ sign = [45]) ∧ NumCore core

/-! Facts about digit lists and the token grammar. -/

theorem mem_stripZeros (l : List Nat) (x : Nat) (h : x ∈ stripZeros l) : x ∈ l := by
  unfold stripZeros at h
  rw [List.mem_reverse] at h
  have := List.dropWhile_sublist (l := l.reverse) (fun d => d == 0)
  have hx := this.mem h
  rwa [List.mem_reverse] at hx

theorem stripZeros_ne_nil (d : Nat) (t : List Nat) (hd : d ≠ 0) :
    stripZeros (d :: t) ≠ [] := by
  unfold stripZeros
  intro hcon
  rw [List.reverse_eq_nil_iff] at hcon
  rw [List.dropWhile_eq_nil_iff] at hcon
  have : d ∈ (d :: t).reverse := by
    rw [List.mem_reverse]
    exact List.mem_cons_self d t
  have := hcon d this
  simp at this
  exact hd this

theorem digitChars_bounds (ds : List Nat) (h : ∀ d ∈ ds, d < 10) :
    ∀ x ∈ digitChars ds, 48 ≤ x ∧ x ≤ 57 := by
  intro x hx
  unfold digitChars at hx
  obtain ⟨d, hd, rfl⟩ := List.mem_map.mp hx
  have := h d hd
  omega

theorem digitChars_ne_nil (ds : List Nat) (h : ds ≠ []) : digitChars ds ≠ [] := by
  unfold digitChars
  simpa using h

theorem natDigits_ne_nil (n : Nat) : natDigits n ≠ [] := by
  by_cases h : n = 0
  · subst h; simp [natDigits]
  · obtain ⟨d, t, hds, -, -, -⟩ := natDigits_head n (by omega)
    rw [hds]
    simp

theorem numCore_of_intPart (l : List Nat) (h : IntPartTok l) : NumCore l :=
  ⟨l, [], [], by simp, h, Or.inl rfl, Or.inl rfl⟩

/-- The `%.15g` rendering of a mantissa in the window is a JSON number
token (without sign). -/
theorem g15render_numCore (m : Nat) (x : Int) (hm1 : 10 ^ 14 ≤ m)
    (hm2 : m < 10 ^ 15) : NumCore (g15render m x) := by
  obtain ⟨d, t, hds, hd1, hd9, ht⟩ := natDigits_head m (by norm_num at hm1; omega)
  have hlt10 : ∀ y ∈ natDigits m, y < 10 := natDigits_lt10 m
  unfold g15render
  split
  · rename_i hxr
    split
    · rename_i hx0
      -- fixed notation, nonnegative exponent
      refine ⟨digitChars ((natDigits m).take (x.toNat + 1)),
        (if stripZeros ((natDigits m).drop (x.toNat + 1)) = [] then []
         else 46 :: digitChars (stripZeros ((natDigits m).drop (x.toNat + 1)))),
        [], by simp, ?_, ?_, Or.inl rfl⟩
      · right
        rw [hds]
        refine ⟨d + 48, digitChars (t.take x.toNat), ?_, by omega, by omega, ?_⟩
        · simp [digitChars, List.take_cons]
        · intro y hy
          refine digitChars_bounds _ ?_ y hy
          intro z hz
          exact ht z (List.take_subset _ _ hz)
      · split
        · exact Or.inl rfl
        · rename_i hne
          right
          refine ⟨digitChars (stripZeros ((natDigits m).drop (x.toNat + 1))), rfl,
            digitChars_ne_nil _ hne, ?_⟩
          refine digitChars_bounds _ ?_
          intro z hz
          exact hlt10 z (List.mem_of_mem_drop (mem_stripZeros _ _ hz))
    · rename_i hxneg
      -- fixed notation, negative exponent
      refine ⟨[48], 46 :: (List.replicate ((-x).toNat - 1) 48 ++
        digitChars (stripZeros (natDigits m))), [], ?_, Or.inl rfl, ?_, Or.inl rfl⟩
      · simp
      · right
        refine ⟨_, rfl, ?_, ?_⟩
        · intro hcon
          rw [List.append_eq_nil] at hcon
          exact digitChars_ne_nil (stripZeros (natDigits m))
            (by rw [hds]; exact stripZeros_ne_nil d t (by omega)) hcon.2
        · intro y hy
          rcases List.mem_append.mp hy with h | h
          · have := List.eq_of_mem_replicate h
            omega
          · refine digitChars_bounds _ ?_ y h
            intro z hz
            exact hlt10 z (mem_stripZeros _ _ hz)
  · -- scientific notation
    refine ⟨digitChars ((natDigits m).take 1),
      (if stripZeros ((natDigits m).drop 1) = [] then []
       else 46 :: digitChars (stripZeros ((natDigits m).drop 1))),
      101 :: expChars x, by simp, ?_, ?_, ?_⟩
    · right
      rw [hds]
      refine ⟨d + 48, [], by simp [digitChars], by omega, by omega, by simp⟩
    · split
      · exact Or.inl rfl
      · rename_i hne
        right
        refine ⟨digitChars (stripZeros ((natDigits m).drop 1)), rfl,
          digitChars_ne_nil _ hne, ?_⟩
        refine digitChars_bounds _ ?_
        intro z hz
        exact hlt10 z (List.mem_of_mem_drop (mem_stripZeros _ _ hz))
    · right
      unfold expChars
      refine ⟨if 0 ≤ x then [43] else [45],
        digitChars (if x.natAbs < 10 then [0, x.natAbs] else natDigits x.natAbs),
        by split <;> simp, by split <;> simp, ?_, ?_⟩
      · refine digitChars_ne_nil _ ?_
        split
        · simp
        · exact natDigits_ne_nil _
      · refine digitChars_bounds _ ?_
        intro z hz
        split at hz
        · rename_i hlt
          simp only [List.mem_cons, List.mem_singleton] at hz
          rcases hz with rfl | rfl | h
          · omega
          · omega
          · simp at h
        · exact natDigits_lt10 _ z hz

theorem g15pos_numCore (a b : Nat) (ha : 1 ≤ a) (hb : 1 ≤ b) :
    NumCore (g15pos a b) := by
  obtain ⟨h1, h2⟩ := g15mantissa_bounds a b ha hb
  exact g15render_numCore _ _ h1 h2

theorem numCore_zero : NumCore [48] :=
  numCore_of_intPart _ (Or.inl rfl)

/-- The `%.15g` output of any rational is a JSON number token. -/
theorem g15_numTok (q : Rat) : JNumTok (g15 q) := by
  unfold g15
  split
  · exact ⟨[], [48], by simp, Or.inl rfl, numCore_zero⟩
  · rename_i hq0
    have hden : 1 ≤ q.den := q.pos
    have hnum : 1 ≤ q.num.natAbs := by
      have : q.num ≠ 0 := Rat.num_ne_zero.mpr hq0
      omega
    split
    · exact ⟨[45], g15pos q.num.natAbs q.den, rfl, Or.inr rfl,
        g15pos_numCore _ _ hnum hden⟩
    · exact ⟨[], g15pos q.num.natAbs q.den, by simp, Or.inl rfl,
        g15pos_numCore _ _ hnum hden⟩

/-- The `%ld` output of any 64-bit integer is a JSON number token. -/
theorem intChars_numTok (i : Int) : JNumTok (intChars i) := by
  unfold intChars
  by_cases hi : i = 0
  · subst hi
    rw [if_neg (by omega)]
    exact ⟨[], [48], by simp [natDigits, digitChars], Or.inl rfl, numCore_zero⟩
  · have habs : 1 ≤ i.natAbs := by omega
    obtain ⟨d, t, hds, hd1, hd9, ht⟩ := natDigits_head i.natAbs habs
    have hcore : NumCore (digitChars (natDigits i.natAbs)) := by
      refine numCore_of_intPart _ (Or.inr ⟨d + 48, digitChars t, ?_, by omega,
        by omega, digitChars_bounds t ht⟩)
      simp [hds, digitChars]
    split
    · exact ⟨[45], digitChars (natDigits i.natAbs), rfl, Or.inr rfl, hcore⟩
    · exact ⟨[], digitChars (natDigits i.natAbs), by simp, Or.inl rfl, hcore⟩

/-- Every JSON number token starts with a minus sign or a digit; in
particular it is never the text `null`. -/
theorem jNumTok_ne_null (l : List Nat) (h : JNumTok l) : l ≠ nullBytes := by
  obtain ⟨sign, core, rfl, hsign, ip, f, e, rfl, hip, -, -⟩ := h
  have hhead : ∃ c r, ip = c :: r ∧ 48 ≤ c ∧ c ≤ 57 := by
    rcases hip with rfl | ⟨d, t, rfl, hd1, hd9, -⟩
    · exact ⟨48, [], rfl, by omega, by omega⟩
    · exact ⟨d, t, rfl, by omega, by omega⟩
  obtain ⟨c, r, rfl, hc1, hc2⟩ := hhead
  rcases hsign with rfl | rfl
  · simp only [List.nil_append, List.cons_append, nullBytes]
    intro hcon
    rw [List.cons_eq_cons] at hcon
    omega
  · simp only [List.cons_append, nullBytes]
    intro hcon
    rw [List.cons_eq_cons] at hcon
    omega

/-- Claim C5 core: `stringify` of a number is `null` exactly for the
non-finite values, and every finite value renders as a number token. -/
theorem stringifyNumber_spec :
    (∀ d : JNum, stringifyNumber d = nullBytes ↔
      (d = JNum.nan ∨ d = JNum.posInf ∨ d = JNum.negInf)) ∧
    (∀ q : Rat, JNumTok (stringifyNumber (JNum.finite q))) := by
  have htok : ∀ q : Rat, JNumTok (stringifyNumber (JNum.finite q)) := by
    intro q
    simp only [stringifyNumber]
    split
    · exact intChars_numTok q.num
    · exact g15_numTok q
  refine ⟨?_, htok⟩
  intro d
  cases d with
  | nan => simp [stringifyNumber]
  | posInf => simp [stringifyNumber]
  | negInf => simp [stringifyNumber]
  | finite q =>
    constructor
    · intro hnull
      exact absurd hnull (jNumTok_ne_null _ (htok q))
    · intro hcon
      rcases hcon with h | h | h <;> exact absurd h (by simp)

/-! ## String escaping (json_stringify.cc, escapeStringFast and the escape
table)

A byte is escape-worthy when it is below 0x20 or is `"` or `\`.  The
seven table entries produce two-byte escapes; any other control byte
produces `\u00XX` with lowercase hex.  The run-flushing optimization in
the C++ emits exactly the per-byte concatenation below. -/

def hexLowerChar (n : Nat) : Nat := if n < 10 then 48 + n else 87 + n

def escSeq (c : Nat) : List Nat :=
  if c = 34 then [92, 34]
  else if c = 92 then [92, 92]
  else if c = 8 then [92, 98]
  else if c = 12 then [92, 102]
  else if c = 10 then [92, 110]
  else if c = 13 then [92, 114]
  else if c = 9 then [92, 116]
  else [92, 117, 48, 48, hexLowerChar (c / 16), hexLowerChar (c % 16)]

def escapeBody : List Nat → List Nat
  | [] => []
  | c :: rest =>
    (if c < 32 ∨ c = 34 ∨ c = 92 then escSeq c else [c]) ++ escapeBody rest

def escapeString (s : List Nat) : List Nat := 34 :: escapeBody s ++ [34]

/-! ## JSON output grammar (RFC 8259, over bytes)

A derivation of `JsonVal l` certifies that `l` is a syntactically valid
JSON value text with no whitespace between tokens. -/

inductive JStrBody : List Nat → Prop
  | nil : JStrBody []
  | raw (b : Nat) (t : List Nat) : 32 ≤ b → b < 256 → b ≠ 34 → b ≠ 92 →
      JStrBody t → JStrBody (b :: t)
  | esc (e : Nat) (t : List Nat) :
      e ∈ ([34, 92, 47, 98, 102, 110, 114, 116] : List Nat) →
      JStrBody t → JStrBody (92 :: e :: t)
  | uni (h1 h2 h3 h4 : Nat) (t : List Nat) : isHexDigit h1 = true →
      isHexDigit h2 = true → isHexDigit h3 = true → isHexDigit h4 = true →
      JStrBody t → JStrBody (92 :: 117 :: h1 :: h2 :: h3 :: h4 :: t)

def JStrTok (l : List Nat) : Prop := ∃ b, JStrBody b ∧ l = 34 :: b ++ [34]

mutual
inductive JsonVal : List Nat → Prop
  | nullTok : JsonVal [110, 117, 108, 108]
  | trueTok : JsonVal [116, 114, 117, 101]
  | falseTok : JsonVal [102, 97, 108, 115, 101]
  | num (l : List Nat) : JNumTok l → JsonVal l
  | str (l : List Nat) : JStrTok l → JsonVal l
  | arrEmpty : JsonVal [91, 93]
  | arr (l : List Nat) : JsonElems l → JsonVal (91 :: l ++ [93])
  | objEmpty : JsonVal [123, 125]
  | obj (l : List Nat) : JsonMembers l → JsonVal (123 :: l ++ [125])

inductive JsonElems : List Nat → Prop
  | one (l : List Nat) : JsonVal l → JsonElems l
  | snoc (m l : List Nat) : JsonElems m → JsonVal l → JsonElems (m ++ 44 :: l)

inductive JsonMembers : List Nat → Prop
  | one (k v : List Nat) : JStrTok k → JsonVal v → JsonMembers (k ++ 58 :: v)
  | snoc (m k v : List Nat) : JsonMembers m → JStrTok k → JsonVal v →
      JsonMembers (m ++ 44 :: (k ++ 58 :: v))
end

theorem isHexDigit_hexLowerChar (n : Nat) (h : n < 16) :
    isHexDigit (hexLowerChar n) = true := by
  simp only [isHexDigit, hexLowerChar, HEX_TABLE, decide_eq_true_eq]
  split_ifs <;> omega

/-- The escaped body of a byte string (all bytes below 256) is a valid
JSON string body. -/
theorem jStrBody_escapeBody (s : List Nat) (h : ∀ b ∈ s, b < 256) :
    JStrBody (escapeBody s) := by
  induction s with
  | nil => exact JStrBody.nil
  | cons c rest ih =>
    have hc : c < 256 := h c (List.mem_cons_self c rest)
    have hrest := ih fun b hb => h b (List.mem_cons_of_mem c hb)
    show JStrBody ((if c < 32 ∨ c = 34 ∨ c = 92 then escSeq c else [c]) ++
      escapeBody rest)
    by_cases hesc : c < 32 ∨ c = 34 ∨ c = 92
    · rw [if_pos hesc]
      unfold escSeq
      split_ifs with e1 e2 e3 e4 e5 e6 e7
      · exact JStrBody.esc 34 _ (by simp) hrest
      · exact JStrBody.esc 92 _ (by simp) hrest
      · exact JStrBody.esc 98 _ (by simp) hrest
      · exact JStrBody.esc 102 _ (by simp) hrest
      · exact JStrBody.esc 110 _ (by simp) hrest
      · exact JStrBody.esc 114 _ (by simp) hrest
      · exact JStrBody.esc 116 _ (by simp) hrest
      · have hctl : c < 32 := by omega
        exact JStrBody.uni 48 48 _ _ _ (by simp [isHexDigit, HEX_TABLE])
          (by simp [isHexDigit, HEX_TABLE])
          (isHexDigit_hexLowerChar _ (by omega))
          (isHexDigit_hexLowerChar _ (by omega)) hrest
    · rw [if_neg hesc]
      push_neg at hesc
      exact JStrBody.raw c _ (by omega) hc hesc.2.1 hesc.2.2 hrest

theorem jStrTok_escapeString (s : List Nat) (h : ∀ b ∈ s, b < 256) :
    JStrTok (escapeString s) :=
  ⟨escapeBody s, jStrBody_escapeBody s h, rfl⟩

/-! ## The dynamic value tree (host values handed to the serializer)

The kinds a `Napi::Value` can take, as a tree.  An array may carry a
callable `toJSON` property (arrays are objects in the host); the
dispatch of the serializer reaches `IsArray` first, so the field is never
consulted for arrays.  An object or function value with a callable
`toJSON` member is modelled with the value that invoking the member
returns.  `vfn` is a callable: the host test `IsObject` answers true for
functions as well, so callables flow into the object branch.  `vother`
covers the remaining kinds (symbols, bigints, opaque external values),
for which every `Is...` test in the dispatch chain answers false. -/

inductive JValue where
  | vnull : JValue
  | vundef : JValue
  | vbool : Bool → JValue
  | vnum : JNum → JValue
  | vstr : List Nat → JValue
  | varr : List JValue → Option JValue → JValue
  | vobj : List (List Nat × JValue) → Option JValue → JValue
  | vfn : List (List Nat × JValue) → Option JValue → JValue
  | vother : JValue

def JValue.isUndefined : JValue → Bool
  | .vundef => true
  | _ => false

def trueBytes : List Nat := [116, 114, 117, 101]
def falseBytes : List Nat := [102, 97, 108, 115, 101]

/-! ## The serializer (json_stringify.cc, stringifyValueFast /
stringifyArrayFast / stringifyObjectFast)

The dispatch order matches the C++ `if` chain: null/undefined, boolean,
number, string, array, object (with the `toJSON` hook probed before the
plain object walk), and a final `null` fallback.  The depth guard sits at
the entry of the array and object emitters; elements and property values
recurse at `depth + 1`; a `toJSON` replacement is serialized at the same
depth. -/

mutual
def stringifyValueFast : JValue → Nat → List Nat
  | .vnull, _ => nullBytes
  | .vundef, _ => nullBytes
  | .vbool b, _ => if b then trueBytes else falseBytes
  | .vnum d, _ => stringifyNumber d
  | .vstr s, _ => escapeString s
  | .varr elems _, depth => stringifyArrayFast elems depth
  | .vobj props tj, depth =>
    match tj with
    | some r => stringifyValueFast r depth
    | none => stringifyObjectFast props depth
  | .vfn props tj, depth =>
    match tj with
    | some r => stringifyValueFast r depth
    | none => stringifyObjectFast props depth
  | .vother, _ => nullBytes

def stringifyArrayFast (elems : List JValue) (depth : Nat) : List Nat :=
  if depth > 10 then nullBytes
  else 91 :: elemsOut elems (depth + 1) true ++ [93]

def elemsOut : List JValue → Nat → Bool → List Nat
  | [], _, _ => []
  | e :: rest, depth, first =>
    (if first then [] else [44]) ++ stringifyValueFast e depth ++
      elemsOut rest depth false

def stringifyObjectFast (props : List (List Nat × JValue)) (depth : Nat) :
    List Nat :=
  if depth > 10 then nullBytes
  else 123 :: propsOut props (depth + 1) true ++ [125]

def propsOut : List (List Nat × JValue) → Nat → Bool → List Nat
  | [], _, _ => []
  | (k, v) :: rest, depth, first =>
    if v.isUndefined then propsOut rest depth first
    else (if first then [] else [44]) ++ escapeString k ++
      58 :: stringifyValueFast v depth ++ propsOut rest depth false
end

/-! Well-formedness of a host value: every string payload and every
property key is a byte string (entries below 256). -/
mutual
def JValue.wf : JValue → Bool
  | .vnull => true
  | .vundef => true
  | .vbool _ => true
  | .vnum _ => true
  | .vstr s => s.all (fun b => b < 256)
  | .varr elems tj => wfList elems && wfOpt tj
  | .vobj props tj => wfProps props && wfOpt tj
  | .vfn props tj => wfProps props && wfOpt tj
  | .vother => true

def wfList : List JValue → Bool
  | [] => true
  | e :: rest => e.wf && wfList rest

def wfProps : List (List Nat × JValue) → Bool
  | [] => true
  | (k, v) :: rest => k.all (fun b => b < 256) && v.wf && wfProps rest

def wfOpt : Option JValue → Bool
  | none => true
  | some v => v.wf
end

/-! ## Validity of the serializer output -/

theorem wfStr_bytes (s : List Nat) (h : s.all (fun b => b < 256) = true) :
    ∀ b ∈ s, b < 256 := by
  intro b hb
  have := List.all_eq_true.mp h b hb
  simpa using this

mutual
theorem jsonVal_stringify (v : JValue) (d : Nat) (h : v.wf = true) :
    JsonVal (stringifyValueFast v d) := by
  match v with
  | .vnull =>
    simp only [stringifyValueFast]
    exact JsonVal.nullTok
  | .vundef =>
    simp only [stringifyValueFast]
    exact JsonVal.nullTok
  | .vbool b =>
    simp only [stringifyValueFast]
    cases b
    · simp only [Bool.false_eq_true, if_false]
      exact JsonVal.falseTok
    · simp only [if_true]
      exact JsonVal.trueTok
  | .vnum dn =>
    simp only [stringifyValueFast]
    match dn with
    | .nan => exact JsonVal.nullTok
    | .posInf => exact JsonVal.nullTok
    | .negInf => exact JsonVal.nullTok
    | .finite q => exact JsonVal.num _ (stringifyNumber_spec.2 q)
  | .vstr s =>
    simp only [stringifyValueFast]
    exact JsonVal.str _ (jStrTok_escapeString s (wfStr_bytes s (by
      simpa [JValue.wf] using h)))
  | .varr elems tj =>
    simp only [stringifyValueFast]
    refine jsonVal_stringifyArray elems d ?_
    simp only [JValue.wf, Bool.and_eq_true] at h
    exact h.1
  | .vobj props (some r) =>
    simp only [stringifyValueFast]
    refine jsonVal_stringify r d ?_
    simp only [JValue.wf, Bool.and_eq_true, wfOpt] at h
    exact h.2
  | .vobj props none =>
    simp only [stringifyValueFast]
    refine jsonVal_stringifyObject props d ?_
    simp only [JValue.wf, Bool.and_eq_true] at h
    exact h.1
  | .vfn props (some r) =>
    simp only [stringifyValueFast]
    refine jsonVal_stringify r d ?_
    simp only [JValue.wf, Bool.and_eq_true, wfOpt] at h
    exact h.2
  | .vfn props none =>
    simp only [stringifyValueFast]
    refine jsonVal_stringifyObject props d ?_
    simp only [JValue.wf, Bool.and_eq_true] at h
    exact h.1
  | .vother =>
    simp only [stringifyValueFast]
    exact JsonVal.nullTok

theorem jsonVal_stringifyArray (elems : List JValue) (d : Nat)
    (h : wfList elems = true) : JsonVal (stringifyArrayFast elems d) := by
  simp only [stringifyArrayFast]
  split
  · exact JsonVal.nullTok
  · match elems with
    | [] =>
      simp only [elemsOut, List.nil_append]
      exact JsonVal.arrEmpty
    | e :: rest =>
      simp only [elemsOut, if_true, List.nil_append]
      simp only [wfList, Bool.and_eq_true] at h
      have h1 : JsonElems (stringifyValueFast e (d + 1)) :=
        JsonElems.one _ (jsonVal_stringify e (d + 1) h.1)
      exact JsonVal.arr _ (jsonElems_elemsOut rest (d + 1) _ h.2 h1)

theorem jsonElems_elemsOut (elems : List JValue) (d : Nat) (m : List Nat)
    (h : wfList elems = true) (hm : JsonElems m) :
    JsonElems (m ++ elemsOut elems d false) := by
  match elems with
  | [] =>
    simp only [elemsOut, List.append_nil]
    exact hm
  | e :: rest =>
    simp only [elemsOut, Bool.false_eq_true, if_false]
    simp only [wfList, Bool.and_eq_true] at h
    have hsnoc : JsonElems (m ++ 44 :: stringifyValueFast e d) :=
      JsonElems.snoc m _ hm (jsonVal_stringify e d h.1)
    have hrec := jsonElems_elemsOut rest d _ h.2 hsnoc
    simpa [List.append_assoc] using hrec

theorem jsonVal_stringifyObject (props : List (List Nat × JValue)) (d : Nat)
    (h : wfProps props = true) : JsonVal (stringifyObjectFast props d) := by
  simp only [stringifyObjectFast]
  split
  · exact JsonVal.nullTok
  · rcases propsOut_cases props (d + 1) h with hnil | hmem
    · rw [hnil]
      exact JsonVal.objEmpty
    · exact JsonVal.obj _ hmem

theorem propsOut_cases (props : List (List Nat × JValue)) (d : Nat)
    (h : wfProps props = true) :
    propsOut props d true = [] ∨ JsonMembers (propsOut props d true) := by
  match props with
  | [] =>
    left
    simp only [propsOut]
  | (k, v) :: rest =>
    simp only [wfProps, Bool.and_eq_true] at h
    simp only [propsOut]
    split
    · exact propsOut_cases rest d h.2
    · right
      simp only [if_true, List.nil_append]
      have hone : JsonMembers (escapeString k ++ 58 :: stringifyValueFast v d) :=
        JsonMembers.one _ _
          (jStrTok_escapeString k (wfStr_bytes k h.1.1))
          (jsonVal_stringify v d h.1.2)
      have hrec := jsonMembers_propsOut rest d _ h.2 hone
      simpa [List.append_assoc] using hrec

theorem jsonMembers_propsOut (props : List (List Nat × JValue)) (d : Nat)
    (m : List Nat) (h : wfProps props = true) (hm : JsonMembers m) :
    JsonMembers (m ++ propsOut props d false) := by
  match props with
  | [] =>
    simp only [propsOut, List.append_nil]
    exact hm
  | (k, v) :: rest =>
    simp only [wfProps, Bool.and_eq_true] at h
    simp only [propsOut]
    split
    · exact jsonMembers_propsOut rest d m h.2 hm
    · simp only [Bool.false_eq_true, if_false]
      have hsnoc : JsonMembers (m ++ 44 ::
          (escapeString k ++ 58 :: stringifyValueFast v d)) :=
        JsonMembers.snoc m _ _ hm
          (jStrTok_escapeString k (wfStr_bytes k h.1.1))
          (jsonVal_stringify v d h.1.2)
      have hrec := jsonMembers_propsOut rest d _ h.2 hsnoc
      simpa [List.append_assoc] using hrec
end

/-! ## Entry points (vibe_native.cc; ParseUrl / ParseQuery / DecodeURI in
url_parser.cc; FastStringify in json_stringify.cc)

An entry point receives the host callback arguments (`info`) as a list of
values.  `ParseUrl` alone throws: a `TypeError` when no argument is given
or the first argument is not a string.  The others return fallback values
for non-string input. -/

structure ParseResult where
  pathname : List Nat
  query : List (List Nat × List Nat)

/-- `UrlParser::Parse`: split at the first `?` (`memchr`); no `?` means
the whole input is the pathname and the query mapping is empty.  The
pathname is not percent-decoded. -/
def UrlParser_Parse (url : List Nat) : ParseResult :=
  if 63 ∈ url then
    { pathname := url.takeWhile (fun c => c != 63),
      query := queryMap ((url.dropWhile (fun c => c != 63)).tail) }
  else
    { pathname := url, query := [] }

inductive HostError where
  | typeError : List Nat → HostError

/-- The bytes of `"URL string expected"`. -/
def typeErrorMsg : List Nat :=
  [85, 82, 76, 32, 115, 116, 114, 105, 110, 103, 32, 101, 120, 112,
   101, 99, 116, 101, 100]

def ParseUrl (info : List JValue) : Except HostError ParseResult :=
  match info with
  | .vstr s :: _ => .ok (UrlParser_Parse s)
  | _ => .error (.typeError typeErrorMsg)

def ParseQuery (info : List JValue) :
    Except HostError (List (List Nat × List Nat)) :=
  match info with
  | .vstr s :: _ => .ok (queryMap (if s.head? = some 63 then s.tail else s))
  | _ => .ok []

def DecodeURI (info : List JValue) : Except HostError (List Nat) :=
  match info with
  | .vstr s :: _ => .ok (DecodeURIComponent s)
  | _ => .ok []

/-- The bytes of `"undefined"`. -/
def undefinedBytes : List Nat := [117, 110, 100, 101, 102, 105, 110, 101, 100]

def FastStringify (info : List JValue) : Except HostError (List Nat) :=
  match info with
  | [] => .ok undefinedBytes
  | v :: _ => .ok (stringifyValueFast v 0)

/-- The `version` export: the constant string `"1.0.0"`. -/
def Version : Except HostError (List Nat) := .ok [49, 46, 48, 46, 48]

/-! ## Heap model for cyclic values (json_stringify.cc on host heaps)

Host values live on a heap and may be cyclic (a self-referential array is
built by `a = []; a.push(a)`).  A store is a list of nodes; references
are indices.  `Emits S t d o` is the big-step semantics of the serializer
walk: it holds exactly when the corresponding C++ call returns, having
appended `o`.  The rules mirror `stringifyValueFast` (dispatch and the
`toJSON` hook at unchanged depth), `stringifyArrayFast` and
`stringifyObjectFast` (depth guard on entry, elements and properties at
`depth + 1`, undefined properties skipped). -/

inductive NodeS where
  | nullS : NodeS
  | undefS : NodeS
  | boolS : Bool → NodeS
  | numS : JNum → NodeS
  | strS : List Nat → NodeS
  | arrS : List Nat → NodeS
  | objS : List (List Nat × Nat) → Option Nat → NodeS
  | fnS : List (List Nat × Nat) → Option Nat → NodeS
  | otherS : NodeS
deriving DecidableEq

def nodeAt (S : List NodeS) (r : Nat) : NodeS := S.getD r .nullS

/-- A pending emission: a value, an element list (with first-element
flag), or a property list (with first-pair flag). -/
inductive Task where
  | val : Nat → Task
  | elems : List Nat → Bool → Task
  | props : List (List Nat × Nat) → Bool → Task

inductive Emits (S : List NodeS) : Task → Nat → List Nat → Prop where
  | nullE (r : Nat) (d : Nat) : nodeAt S r = .nullS →
      Emits S (.val r) d nullBytes
  | undefE (r : Nat) (d : Nat) : nodeAt S r = .undefS →
      Emits S (.val r) d nullBytes
  | boolE (r : Nat) (d : Nat) (b : Bool) : nodeAt S r = .boolS b →
      Emits S (.val r) d (if b then trueBytes else falseBytes)
  | numE (r : Nat) (d : Nat) (n : JNum) : nodeAt S r = .numS n →
      Emits S (.val r) d (stringifyNumber n)
  | strE (r : Nat) (d : Nat) (s : List Nat) : nodeAt S r = .strS s →
      Emits S (.val r) d (escapeString s)
  | arrDeep (r : Nat) (d : Nat) (es : List Nat) : nodeAt S r = .arrS es →
      d > 10 → Emits S (.val r) d nullBytes
  | arrE (r : Nat) (d : Nat) (es : List Nat) (o : List Nat) :
      nodeAt S r = .arrS es → ¬ d > 10 →
      Emits S (.elems es true) (d + 1) o →
      Emits S (.val r) d (91 :: o ++ [93])
  | objHook (r : Nat) (d : Nat) (ps : List (List Nat × Nat)) (rj : Nat)
      (o : List Nat) : nodeAt S r = .objS ps (some rj) →
      Emits S (.val rj) d o → Emits S (.val r) d o
  | objDeep (r : Nat) (d : Nat) (ps : List (List Nat × Nat)) :
      nodeAt S r = .objS ps none → d > 10 → Emits S (.val r) d nullBytes
  | objE (r : Nat) (d : Nat) (ps : List (List Nat × Nat)) (o : List Nat) :
      nodeAt S r = .objS ps none → ¬ d > 10 →
      Emits S (.props ps true) (d + 1) o →
      Emits S (.val r) d (123 :: o ++ [125])
  | fnHook (r : Nat) (d : Nat) (ps : List (List Nat × Nat)) (rj : Nat)
      (o : List Nat) : nodeAt S r = .fnS ps (some rj) →
      Emits S (.val rj) d o → Emits S (.val r) d o
  | fnDeep (r : Nat) (d : Nat) (ps : List (List Nat × Nat)) :
      nodeAt S r = .fnS ps none → d > 10 → Emits S (.val r) d nullBytes
  | fnE (r : Nat) (d : Nat) (ps : List (List Nat × Nat)) (o : List Nat) :
      nodeAt S r = .fnS ps none → ¬ d > 10 →
      Emits S (.props ps true) (d + 1) o →
      Emits S (.val r) d (123 :: o ++ [125])
  | otherE (r : Nat) (d : Nat) : nodeAt S r = .otherS →
      Emits S (.val r) d nullBytes
  | elemsNil (f : Bool) (d : Nat) : Emits S (.elems [] f) d []
  | elemsCons (e : Nat) (rest : List Nat) (f : Bool) (d : Nat)
      (oe orest : List Nat) : Emits S (.val e) d oe →
      Emits S (.elems rest false) d orest →
      Emits S (.elems (e :: rest) f) d ((if f then [] else [44]) ++ oe ++ orest)
  | propsNil (f : Bool) (d : Nat) : Emits S (.props [] f) d []
  | propsSkip (k : List Nat) (v : Nat) (rest : List (List Nat × Nat))
      (f : Bool) (d : Nat) (o : List Nat) : nodeAt S v = .undefS →
      Emits S (.props rest f) d o → Emits S (.props ((k, v) :: rest) f) d o
  | propsCons (k : List Nat) (v : Nat) (rest : List (List Nat × Nat))
      (f : Bool) (d : Nat) (ov orest : List Nat) : nodeAt S v ≠ .undefS →
      Emits S (.val v) d ov → Emits S (.props rest false) d orest →
      Emits S (.props ((k, v) :: rest) f) d
        ((if f then [] else [44]) ++ escapeString k ++ 58 :: ov ++ orest)

/-- The serializer walk is deterministic. -/
theorem emits_deterministic (S : List NodeS) (t : Task) (d : Nat)
    (o1 : List Nat) (h1 : Emits S t d o1) :
    ∀ o2, Emits S t d o2 → o1 = o2 := by
  induction h1 with
  | nullE r d hn => intro o2 h2; cases h2 <;> simp_all
  | undefE r d hn => intro o2 h2; cases h2 <;> simp_all
  | boolE r d b hn => intro o2 h2; cases h2 <;> simp_all
  | numE r d n hn => intro o2 h2; cases h2 <;> simp_all
  | strE r d s hn => intro o2 h2; cases h2 <;> simp_all
  | arrDeep r d es hn hd => intro o2 h2; cases h2 <;> simp_all
  | arrE r d es o hn hd he ih =>
    intro o2 h2
    cases h2 <;> simp_all
    all_goals exact ih _ (by assumption)
  | objHook r d ps rj o hn he ih =>
    intro o2 h2
    cases h2 <;> simp_all
    all_goals exact ih _ (by assumption)
  | objDeep r d ps hn hd => intro o2 h2; cases h2 <;> simp_all
  | objE r d ps o hn hd he ih =>
    intro o2 h2
    cases h2 <;> simp_all
    all_goals exact ih _ (by assumption)
  | fnHook r d ps rj o hn he ih =>
    intro o2 h2
    cases h2 <;> simp_all
    all_goals exact ih _ (by assumption)
  | fnDeep r d ps hn hd => intro o2 h2; cases h2 <;> simp_all
  | fnE r d ps o hn hd he ih =>
    intro o2 h2
    cases h2 <;> simp_all
    all_goals exact ih _ (by assumption)
  | otherE r d hn => intro o2 h2; cases h2 <;> simp_all
  | elemsNil f d => intro o2 h2; cases h2 <;> simp_all
  | elemsCons e rest f d oe orest he hr ihe ihr =>
    intro o2 h2
    cases h2 with
    | elemsCons _ _ _ _ oe2 orest2 he2 hr2 =>
      rw [ihe oe2 he2, ihr orest2 hr2]
  | propsNil f d => intro o2 h2; cases h2 <;> simp_all
  | propsSkip k v rest f d o hu hr ih =>
    intro o2 h2
    cases h2 with
    | propsSkip _ _ _ _ _ _ hu2 hr2 => exact ih _ hr2
    | propsCons _ _ _ _ _ _ _ hne _ _ => exact absurd hu hne
  | propsCons k v rest f d ov orest hne hv hr ihv ihr =>
    intro o2 h2
    cases h2 with
    | propsSkip _ _ _ _ _ _ hu2 _ => exact absurd hu2 hne
    | propsCons _ _ _ _ _ ov2 orest2 _ hv2 hr2 =>
      rw [ihv ov2 hv2, ihr orest2 hr2]

/-- A store none of whose object or function nodes carries a `toJSON`
hook. -/
def NoHooks (S : List NodeS) : Bool :=
  S.all fun n =>
    match n with
    | .objS _ (some _) => false
    | .fnS _ (some _) => false
    | _ => true

theorem noHooks_objS (S : List NodeS) (hS : NoHooks S = true) (r : Nat)
    (ps : List (List Nat × Nat)) (rj : Nat) :
    nodeAt S r ≠ .objS ps (some rj) := by
  intro hcon
  unfold nodeAt at hcon
  rcases Nat.lt_or_ge r S.length with hr | hr
  · rw [List.getD_eq_getElem _ _ hr] at hcon
    have hmem : S[r] ∈ S := List.getElem_mem hr
    have := List.all_eq_true.mp hS _ hmem
    rw [hcon] at this
    simp at this
  · rw [List.getD_eq_default _ _ hr] at hcon
    simp at hcon

theorem noHooks_fnS (S : List NodeS) (hS : NoHooks S = true) (r : Nat)
    (ps : List (List Nat × Nat)) (rj : Nat) :
    nodeAt S r ≠ .fnS ps (some rj) := by
  intro hcon
  unfold nodeAt at hcon
  rcases Nat.lt_or_ge r S.length with hr | hr
  · rw [List.getD_eq_getElem _ _ hr] at hcon
    have hmem : S[r] ∈ S := List.getElem_mem hr
    have := List.all_eq_true.mp hS _ hmem
    rw [hcon] at this
    simp at this
  · rw [List.getD_eq_default _ _ hr] at hcon
    simp at hcon

/-- On a hook-free store every serializer walk terminates, cyclic arrays
and objects included: the depth guard cuts every chain after eleven
container levels. -/
theorem emits_total (S : List NodeS) (hS : NoHooks S = true) :
    ∀ n d, 11 - d ≤ n → ∀ r, ∃ o, Emits S (.val r) d o := by
  intro n
  induction n with
  | zero =>
    intro d hd r
    have hd11 : d > 10 := by omega
    cases hnode : nodeAt S r with
    | nullS => exact ⟨_, Emits.nullE r d hnode⟩
    | undefS => exact ⟨_, Emits.undefE r d hnode⟩
    | boolS b => exact ⟨_, Emits.boolE r d b hnode⟩
    | numS m => exact ⟨_, Emits.numE r d m hnode⟩
    | strS s => exact ⟨_, Emits.strE r d s hnode⟩
    | arrS es => exact ⟨_, Emits.arrDeep r d es hnode hd11⟩
    | objS ps tj =>
      cases tj with
      | none => exact ⟨_, Emits.objDeep r d ps hnode hd11⟩
      | some rj => exact absurd hnode (noHooks_objS S hS r ps rj)
    | fnS ps tj =>
      cases tj with
      | none => exact ⟨_, Emits.fnDeep r d ps hnode hd11⟩
      | some rj => exact absurd hnode (noHooks_fnS S hS r ps rj)
    | otherS => exact ⟨_, Emits.otherE r d hnode⟩
  | succ n ih =>
    intro d hd r
    have helems : ∀ es f, ∃ o, Emits S (.elems es f) (d + 1) o := by
      intro es
      induction es with
      | nil => exact fun f => ⟨_, Emits.elemsNil f (d + 1)⟩
      | cons e rest ihr =>
        intro f
        obtain ⟨oe, he⟩ := ih (d + 1) (by omega) e
        obtain ⟨orest, hr⟩ := ihr false
        exact ⟨_, Emits.elemsCons e rest f (d + 1) oe orest he hr⟩
    have hprops : ∀ ps f, ∃ o, Emits S (.props ps f) (d + 1) o := by
      intro ps
      induction ps with
      | nil => exact fun f => ⟨_, Emits.propsNil f (d + 1)⟩
      | cons p rest ihr =>
        intro f
        obtain ⟨k, v⟩ := p
        by_cases hu : nodeAt S v = .undefS
        · obtain ⟨o, hr⟩ := ihr f
          exact ⟨_, Emits.propsSkip k v rest f (d + 1) o hu hr⟩
        · obtain ⟨ov, hv⟩ := ih (d + 1) (by omega) v
          obtain ⟨orest, hr⟩ := ihr false
          exact ⟨_, Emits.propsCons k v rest f (d + 1) ov orest hu hv hr⟩
    by_cases hd11 : d > 10
    · cases hnode : nodeAt S r with
      | nullS => exact ⟨_, Emits.nullE r d hnode⟩
      | undefS => exact ⟨_, Emits.undefE r d hnode⟩
      | boolS b => exact ⟨_, Emits.boolE r d b hnode⟩
      | numS m => exact ⟨_, Emits.numE r d m hnode⟩
      | strS s => exact ⟨_, Emits.strE r d s hnode⟩
      | arrS es => exact ⟨_, Emits.arrDeep r d es hnode hd11⟩
      | objS ps tj =>
        cases tj with
        | none => exact ⟨_, Emits.objDeep r d ps hnode hd11⟩
        | some rj => exact absurd hnode (noHooks_objS S hS r ps rj)
      | fnS ps tj =>
        cases tj with
        | none => exact ⟨_, Emits.fnDeep r d ps hnode hd11⟩
        | some rj => exact absurd hnode (noHooks_fnS S hS r ps rj)
      | otherS => exact ⟨_, Emits.otherE r d hnode⟩
    · cases hnode : nodeAt S r with
      | nullS => exact ⟨_, Emits.nullE r d hnode⟩
      | undefS => exact ⟨_, Emits.undefE r d hnode⟩
      | boolS b => exact ⟨_, Emits.boolE r d b hnode⟩
      | numS m => exact ⟨_, Emits.numE r d m hnode⟩
      | strS s => exact ⟨_, Emits.strE r d s hnode⟩
      | arrS es =>
        obtain ⟨o, he⟩ := helems es true
        exact ⟨_, Emits.arrE r d es o hnode hd11 he⟩
      | objS ps tj =>
        cases tj with
        | none =>
          obtain ⟨o, hp⟩ := hprops ps true
          exact ⟨_, Emits.objE r d ps o hnode hd11 hp⟩
        | some rj => exact absurd hnode (noHooks_objS S hS r ps rj)
      | fnS ps tj =>
        cases tj with
        | none =>
          obtain ⟨o, hp⟩ := hprops ps true
          exact ⟨_, Emits.fnE r d ps o hnode hd11 hp⟩
        | some rj => exact absurd hnode (noHooks_fnS S hS r ps rj)
      | otherS => exact ⟨_, Emits.otherE r d hnode⟩

/-- Depth guard, array side: at depth above 10 an array emits `null`. -/
theorem emits_arr_deep (S : List NodeS) (r d : Nat) (es : List Nat)
    (o : List Nat) (hnode : nodeAt S r = .arrS es) (hd : d > 10)
    (h : Emits S (.val r) d o) : o = nullBytes := by
  cases h <;> simp_all

/-- Depth guard, object side: at depth above 10 a hookless object emits
`null`. -/
theorem emits_obj_deep (S : List NodeS) (r d : Nat)
    (ps : List (List Nat × Nat)) (o : List Nat)
    (hnode : nodeAt S r = .objS ps none) (hd : d > 10)
    (h : Emits S (.val r) d o) : o = nullBytes := by
  cases h <;> simp_all

/-- The store holding exactly one node: an array whose only element is
the array itself. -/
def selfRefStore : List NodeS := [.arrS [0]]

/-- The output of the serializer on the self-referential array when
entered at depth `11 - k`: `k` opening brackets, `null`, `k` closing
brackets. -/
def repBrack : Nat → List Nat
  | 0 => nullBytes
  | k + 1 => 91 :: repBrack k ++ [93]

theorem repBrack_length (k : Nat) : (repBrack k).length = 2 * k + 4 := by
  induction k with
  | zero => rfl
  | succ k ih => simp [repBrack, ih]; omega

theorem repBrack_valid (k : Nat) : JsonVal (repBrack k) := by
  induction k with
  | zero => exact JsonVal.nullTok
  | succ k ih => exact JsonVal.arr _ (JsonElems.one _ ih)

theorem emits_selfRef (k : Nat) : ∀ d, k = 11 - d → d ≤ 11 →
    Emits selfRefStore (.val 0) d (repBrack k) := by
  induction k with
  | zero =>
    intro d hk hd
    have hd11 : d > 10 := by omega
    exact Emits.arrDeep 0 d [0] rfl hd11
  | succ k ih =>
    intro d hk hd
    have hd10 : ¬ d > 10 := by omega
    have hval : Emits selfRefStore (.val 0) (d + 1) (repBrack k) :=
      ih (d + 1) (by omega) (by omega)
    have helems : Emits selfRefStore (.elems [0] true) (d + 1)
        (([] : List Nat) ++ repBrack k ++ []) :=
      Emits.elemsCons 0 [] true (d + 1) (repBrack k) [] hval
        (Emits.elemsNil false (d + 1))
    simp only [List.nil_append, List.append_nil] at helems
    exact Emits.arrE 0 d [0] (repBrack k) rfl hd10 helems

/-- The store holding exactly one node: an object with a callable
`toJSON` returning the object itself. -/
def toJsonLoopStore : List NodeS := [.objS [] (some 0)]

/-- On the `toJSON` fixpoint object the serializer never returns: the
hook is re-entered at unchanged depth forever. -/
theorem no_emits_toJsonLoop : ¬ ∃ d o, Emits toJsonLoopStore (.val 0) d o := by
  rintro ⟨d, o, h⟩
  generalize ht : Task.val 0 = t at h
  induction h with
  | objHook r d ps rj o hn he ih =>
    cases ht
    have hr : nodeAt toJsonLoopStore 0 = .objS [] (some 0) := rfl
    rw [hr] at hn
    rw [NodeS.objS.injEq] at hn
    obtain ⟨-, hrj⟩ := hn
    have : rj = 0 := by
      cases hrj
      rfl
    subst this
    exact ih rfl
  | nullE r d hn => cases ht; simp_all [nodeAt, toJsonLoopStore]
  | undefE r d hn => cases ht; simp_all [nodeAt, toJsonLoopStore]
  | boolE r d b hn => cases ht; simp_all [nodeAt, toJsonLoopStore]
  | numE r d n hn => cases ht; simp_all [nodeAt, toJsonLoopStore]
  | strE r d s hn => cases ht; simp_all [nodeAt, toJsonLoopStore]
  | arrDeep r d es hn hd => cases ht; simp_all [nodeAt, toJsonLoopStore]
  | arrE r d es o hn hd he ih => cases ht; simp_all [nodeAt, toJsonLoopStore]
  | objDeep r d ps hn hd => cases ht; simp_all [nodeAt, toJsonLoopStore]
  | objE r d ps o hn hd he ih => cases ht; simp_all [nodeAt, toJsonLoopStore]
  | fnHook r d ps rj o hn he ih => cases ht; simp_all [nodeAt, toJsonLoopStore]
  | fnDeep r d ps hn hd => cases ht; simp_all [nodeAt, toJsonLoopStore]
  | fnE r d ps o hn hd he ih => cases ht; simp_all [nodeAt, toJsonLoopStore]
  | otherE r d hn => cases ht; simp_all [nodeAt, toJsonLoopStore]
  | elemsNil f d => cases ht
  | elemsCons e rest f d oe orest he hr ihe ihr => cases ht
  | propsNil f d => cases ht
  | propsSkip k v rest f d o hu hr ih => cases ht
  | propsCons k v rest f d ov orest hne hv hr ihv ihr => cases ht

/-! ## Small auxiliary predicates used by the claim statements -/

def JValue.isString : JValue → Bool
  | .vstr _ => true
  | _ => false

/-! ## The claims -/

/-- C1 (counterexample): the claim says `null` is substituted for
callables, but a callable host value satisfies `IsObject` (functions are
objects to the host), so it flows into the object branch and a bare
callable serializes as `{}`, not as `null`. -/
theorem claim_C1_counterexample :
    stringifyValueFast (JValue.vfn [] none) 0 = [123, 125] ∧
      ([123, 125] : List Nat) ≠ nullBytes := by
  constructor
  · simp [stringifyValueFast, stringifyObjectFast, propsOut]
  · simp [nullBytes]

/-- C1 (amended): for every well-formed input value the serializer
returns normally (it is a total function) and its result is a
syntactically valid JSON document; `null` is substituted for non-finite
numbers, for over-deep sub-values, and for the value kinds the dispatch
does not list (symbols and opaque host types); callables are dispatched
to the object branch, exactly as objects are. -/
theorem claim_C1_valid_json :
    (∀ v : JValue, ∀ d : Nat, v.wf = true → JsonVal (stringifyValueFast v d)) ∧
    (∀ d : Nat, stringifyValueFast (JValue.vnum JNum.nan) d = nullBytes ∧
      stringifyValueFast (JValue.vnum JNum.posInf) d = nullBytes ∧
      stringifyValueFast (JValue.vnum JNum.negInf) d = nullBytes) ∧
    (∀ es : List JValue, ∀ d : Nat, d > 10 → stringifyArrayFast es d = nullBytes) ∧
    (∀ ps : List (List Nat × JValue), ∀ d : Nat, d > 10 →
      stringifyObjectFast ps d = nullBytes) ∧
    (∀ d : Nat, stringifyValueFast JValue.vother d = nullBytes) ∧
    (∀ ps tj d, stringifyValueFast (JValue.vfn ps tj) d =
      stringifyValueFast (JValue.vobj ps tj) d) := by
  refine ⟨jsonVal_stringify, ?_, ?_, ?_, ?_, ?_⟩
  · intro d
    refine ⟨?_, ?_, ?_⟩ <;> simp [stringifyValueFast, stringifyNumber]
  · intro es d hd
    simp [stringifyArrayFast, hd]
  · intro ps d hd
    simp [stringifyObjectFast, hd]
  · intro d
    simp [stringifyValueFast]
  · intro ps tj d
    cases tj <;> simp [stringifyValueFast]

/-- C1 (witness): the amended theorem applied to a concrete nested value
and to depth 11. -/
theorem claim_C1_witness :
    (JValue.varr [JValue.vstr [104, 105], JValue.vnum JNum.nan] none).wf = true ∧
    JsonVal (stringifyValueFast
      (JValue.varr [JValue.vstr [104, 105], JValue.vnum JNum.nan] none) 0) ∧
    (11 : Nat) > 10 ∧ stringifyArrayFast [] 11 = nullBytes ∧
    stringifyObjectFast [] 11 = nullBytes :=
  ⟨by decide,
    claim_C1_valid_json.1 _ 0 (by decide),
    by omega,
    claim_C1_valid_json.2.2.1 [] 11 (by omega),
    claim_C1_valid_json.2.2.2.1 [] 11 (by omega)⟩

/-- C2: the percent decoder of the source equals the reference
percent-decode of the specification (valid `%XX` triplets become the
byte `16 * hi + lo` consuming three bytes, a `%` without two valid hex
digits after it passes through consuming one byte, `+` becomes the space
byte, everything else passes through), and consequently the output is
never longer than the input. -/
theorem claim_C2_decode :
    ∀ l : List Nat, DecodeURIComponent l = refPercentDecode l ∧
      (DecodeURIComponent l).length ≤ l.length :=
  decode_eq_ref_and_length

/-- C3: the query splitter divides on `&`; a segment without `=` or with
an empty key contributes nothing; a segment with `=` at offset at least 1
contributes its percent-decoded key and value; and looking up any key in
the mapping built by the parser yields the value of the last contributing
segment with that key (last write wins). -/
theorem claim_C3_query :
    (∀ s k : List Nat, lookupKey (queryMap s) k = lastWins (queryPairs s) k) ∧
    (∀ seg : List Nat, 61 ∉ seg → segContribution seg = []) ∧
    (∀ v : List Nat, segContribution (61 :: v) = []) ∧
    (∀ k v : List Nat, 61 ∉ k → k ≠ [] →
      segContribution (k ++ 61 :: v) =
        [(DecodeURIComponent k, DecodeURIComponent v)]) :=
  ⟨queryMap_lookup, segContribution_no_eq, segContribution_empty_key,
    segContribution_pair⟩

/-- C3 (witness): the theorem applied to the concrete query
`a=1&b=2&a=3` (last `a` wins) and to concrete segments. -/
theorem claim_C3_witness :
    lookupKey (queryMap [97, 61, 49, 38, 98, 61, 50, 38, 97, 61, 51]) [97] =
      lastWins (queryPairs [97, 61, 49, 38, 98, 61, 50, 38, 97, 61, 51]) [97] ∧
    (61 : Nat) ∉ ([120, 121] : List Nat) ∧
    segContribution [120, 121] = [] ∧
    segContribution (61 :: [118]) = [] ∧
    (61 : Nat) ∉ ([107] : List Nat) ∧ ([107] : List Nat) ≠ [] ∧
    segContribution ([107] ++ 61 :: [118]) =
      [(DecodeURIComponent [107], DecodeURIComponent [118])] :=
  ⟨claim_C3_query.1 _ _,
    by decide,
    claim_C3_query.2.1 [120, 121] (by decide),
    claim_C3_query.2.2.1 [118],
    by decide, by decide,
    claim_C3_query.2.2.2 [107] [118] (by decide) (by decide)⟩

/-- C4 (counterexample): the claim quantifies over every value, but a
value whose callable `toJSON` returns the value itself makes the
serializer re-enter the hook at unchanged depth forever: no output
derivation exists, the call does not terminate. -/
theorem claim_C4_counterexample :
    ¬ ∃ o, Emits toJsonLoopStore (Task.val 0) 0 o := by
  rintro ⟨o, h⟩
  exact no_emits_toJsonLoop ⟨0, o, h⟩

/-- C4 (amended): for every value on a store without `toJSON` hooks —
self-referential arrays and objects included — the serializer
terminates; on entry to an array or object recursion at depth above 10
it emits the literal `null` instead of recursing; and on the
self-referential array it deterministically produces valid JSON of
`2 * 11 + 4` bytes, bounded by the depth cap. -/
theorem claim_C4_depth_cap :
    (∀ S : List NodeS, NoHooks S = true → ∀ r d : Nat,
      ∃ o, Emits S (Task.val r) d o) ∧
    (∀ S : List NodeS, ∀ r d : Nat, ∀ es o, nodeAt S r = NodeS.arrS es →
      d > 10 → Emits S (Task.val r) d o → o = nullBytes) ∧
    (∀ S : List NodeS, ∀ r d : Nat, ∀ ps o, nodeAt S r = NodeS.objS ps none →
      d > 10 → Emits S (Task.val r) d o → o = nullBytes) ∧
    Emits selfRefStore (Task.val 0) 0 (repBrack 11) ∧
    (∀ o, Emits selfRefStore (Task.val 0) 0 o → o = repBrack 11) ∧
    JsonVal (repBrack 11) ∧ (repBrack 11).length = 2 * 11 + 4 := by
  have hself : Emits selfRefStore (Task.val 0) 0 (repBrack 11) :=
    emits_selfRef 11 0 (by omega) (by omega)
  refine ⟨?_, ?_, ?_, hself, ?_, repBrack_valid 11, repBrack_length 11⟩
  · intro S hS r d
    exact emits_total S hS (11 - d) d (le_refl _) r
  · intro S r d es o hnode hd h
    exact emits_arr_deep S r d es o hnode hd h
  · intro S r d ps o hnode hd h
    exact emits_obj_deep S r d ps o hnode hd h
  · intro o h
    exact emits_deterministic selfRefStore _ _ _ h _ hself

/-- C4 (witness): the amended theorem applied to the self-referential
array store and to a concrete one-node array store at depth 11. -/
theorem claim_C4_witness :
    NoHooks selfRefStore = true ∧
    (∃ o, Emits selfRefStore (Task.val 0) 0 o) ∧
    nodeAt [NodeS.arrS []] 0 = NodeS.arrS [] ∧ (11 : Nat) > 10 ∧
    nullBytes = nullBytes ∧
    repBrack 11 = repBrack 11 :=
  ⟨by decide,
    claim_C4_depth_cap.1 selfRefStore (by decide) 0 0,
    rfl, by omega,
    claim_C4_depth_cap.2.1 [NodeS.arrS []] 0 11 [] nullBytes rfl (by omega)
      (Emits.arrDeep 0 11 [] rfl (by omega)),
    claim_C4_depth_cap.2.2.2.2.1 (repBrack 11)
      claim_C4_depth_cap.2.2.2.1⟩

/-- C5: `stringify` of a number is the four-byte text `null` exactly when
the double is NaN or an infinity; every finite double renders as a JSON
number token — the `%ld` integer form when the value is integral and
inside the safe-integer range, the `%.15g` form otherwise. -/
theorem claim_C5_number :
    (∀ dn : JNum, stringifyValueFast (JValue.vnum dn) 0 = nullBytes ↔
      (dn = JNum.nan ∨ dn = JNum.posInf ∨ dn = JNum.negInf)) ∧
    (∀ q : Rat, JNumTok (stringifyValueFast (JValue.vnum (JNum.finite q)) 0)) ∧
    (∀ q : Rat, stringifyValueFast (JValue.vnum (JNum.finite q)) 0 =
      if q.den = 1 ∧ -(9007199254740991 : Int) ≤ q.num ∧
          q.num ≤ (9007199254740991 : Int)
      then intChars q.num else g15 q) := by
  have hsv : ∀ dn, stringifyValueFast (JValue.vnum dn) 0 = stringifyNumber dn := by
    intro dn
    simp [stringifyValueFast]
  refine ⟨?_, ?_, ?_⟩
  · intro dn
    rw [hsv]
    exact stringifyNumber_spec.1 dn
  · intro q
    rw [hsv]
    exact stringifyNumber_spec.2 q
  · intro q
    rw [hsv]
    simp [stringifyNumber]

/-- C6: decoding the percent-encoding of any byte string returns the
string exactly. -/
theorem claim_C6_roundtrip :
    ∀ b : List Nat, (∀ x ∈ b, x < 256) →
      DecodeURIComponent (percentEncode b) = b :=
  decode_percentEncode

/-- C6 (witness): the round trip on the concrete bytes `h % + ÿ`. -/
theorem claim_C6_witness :
    (∀ x ∈ ([104, 37, 43, 255] : List Nat), x < 256) ∧
      DecodeURIComponent (percentEncode [104, 37, 43, 255]) =
        [104, 37, 43, 255] :=
  ⟨by decide, claim_C6_roundtrip [104, 37, 43, 255] (by decide)⟩

/-- Whether the first callback argument exists and is a string. -/
def argIsString (info : List JValue) : Bool :=
  match info with
  | v :: _ => v.isString
  | [] => false

/-- C7: `parseUrl` raises a `TypeError` exactly when its first argument
is missing or not a string; no other entry point raises: `parseQuery`
yields the empty mapping and `decodeURI` the empty string on non-string
input, `stringify` with no argument yields the literal text `undefined`,
and `version` is a constant. -/
theorem claim_C7_errors :
    (∀ info : List JValue,
      (∃ e, ParseUrl info = Except.error e) ↔ argIsString info = false) ∧
    (∀ info : List JValue, (ParseQuery info).isOk = true) ∧
    (∀ info : List JValue, argIsString info = false →
      ParseQuery info = Except.ok []) ∧
    (∀ info : List JValue, (DecodeURI info).isOk = true) ∧
    (∀ info : List JValue, argIsString info = false →
      DecodeURI info = Except.ok []) ∧
    (FastStringify [] = Except.ok undefinedBytes) ∧
    (∀ info : List JValue, (FastStringify info).isOk = true) ∧
    (Version.isOk = true) := by
  refine ⟨?_, ?_, ?_, ?_, ?_, rfl, ?_, rfl⟩
  · intro info
    match info with
    | [] => simp [ParseUrl, argIsString]
    | v :: rest =>
      cases v <;> simp [ParseUrl, argIsString, JValue.isString, Except.isOk]
  · intro info
    match info with
    | [] => rfl
    | v :: rest =>
      cases v <;> simp [ParseQuery, Except.isOk, Except.toBool]
  · intro info h
    match info with
    | [] => rfl
    | v :: rest =>
      cases v <;> simp_all [ParseQuery, argIsString, JValue.isString]
  · intro info
    match info with
    | [] => rfl
    | v :: rest =>
      cases v <;> simp [DecodeURI, Except.isOk, Except.toBool]
  · intro info h
    match info with
    | [] => rfl
    | v :: rest =>
      cases v <;> simp_all [DecodeURI, argIsString, JValue.isString]
  · intro info
    match info with
    | [] => rfl
    | v :: rest => rfl

/-- C7 (witness): the theorem applied to an absent argument and to a
concrete non-string argument. -/
theorem claim_C7_witness :
    (∃ e, ParseUrl [] = Except.error e) ∧
    argIsString [JValue.vnull] = false ∧
    ParseQuery [JValue.vnull] = Except.ok [] ∧
    DecodeURI [JValue.vnull] = Except.ok [] :=
  ⟨(claim_C7_errors.1 []).mpr (by decide),
    by decide,
    claim_C7_errors.2.2.1 [JValue.vnull] (by decide),
    claim_C7_errors.2.2.2.2.1 [JValue.vnull] (by decide)⟩

/-- C8 (counterexample): with capacity 4096 and 4000 committed bytes, an
append of 200 bytes grows the buffer to `(4000 + 200) * 2 = 8400` — not
to `max(required, current * 2) * 2 = 16384` as the claim states. -/
theorem claim_C8_counterexample :
    (FastStringBuilder.appendBytes
      { cap := 4096, data := List.replicate 4000 97 }
      (List.replicate 200 98)).cap = 8400 ∧
    (8400 : Nat) ≠ max (4000 + 200) (4096 * 2) * 2 := by
  constructor
  · have h := (appendBytes_spec
      { cap := 4096, data := List.replicate 4000 97 }
      (List.replicate 200 98)).2.2
    rw [h]
    have h1 : (List.replicate 4000 (97 : Nat)).length = 4000 :=
      List.length_replicate 4000 97
    have h2 : (List.replicate 200 (98 : Nat)).length = 200 :=
      List.length_replicate 200 98
    rw [h1, h2]
    norm_num
  · norm_num

/-- C8 (amended): the buffer starts at capacity 4096; an append that
would exceed the capacity grows it to `required * 2` where `required` is
the committed position plus the appended length (otherwise the capacity
is unchanged); appends preserve all committed bytes, and the committed
length never exceeds the capacity. -/
theorem claim_C8_growth :
    FastStringBuilder.new.cap = 4096 ∧
    ∀ (b : FastStringBuilder) (bs : List Nat),
      (b.appendBytes bs).data = b.data ++ bs ∧
      (b.appendBytes bs).data.length ≤ (b.appendBytes bs).cap ∧
      (b.appendBytes bs).cap =
        (if b.data.length + bs.length > b.cap
         then (b.data.length + bs.length) * 2 else b.cap) :=
  ⟨rfl, appendBytes_spec⟩

/-- C9: an array is serialized element-wise whatever `toJSON` property it
carries — the array branch is dispatched before the `toJSON` probe — and
the `toJSON` hook is invoked exactly on non-array objects (plain objects
and callables). -/
theorem claim_C9_array_toJSON :
    (∀ es : List JValue, ∀ t : Option JValue, ∀ d : Nat,
      stringifyValueFast (JValue.varr es t) d = stringifyArrayFast es d ∧
      stringifyValueFast (JValue.varr es t) d =
        stringifyValueFast (JValue.varr es none) d) ∧
    (∀ ps r d, stringifyValueFast (JValue.vobj ps (some r)) d =
      stringifyValueFast r d) ∧
    (∀ ps r d, stringifyValueFast (JValue.vfn ps (some r)) d =
      stringifyValueFast r d) := by
  refine ⟨?_, ?_, ?_⟩
  · intro es t d
    constructor <;> simp [stringifyValueFast]
  · intro ps r d
    simp [stringifyValueFast]
  · intro ps r d
    simp [stringifyValueFast]

/-- C10: splitting on `&` and at the first `=` happens before
percent-decoding, so `%26`, `%3D` and `+` inside a key or value decode to
literal `&`, `=` and space without creating pairs or moving the
key/value boundary. -/
theorem claim_C10_decode_after_split :
    (∀ k v : List Nat, 38 ∉ k → 61 ∉ k → 38 ∉ v → k ≠ [] →
      queryPairs (k ++ 61 :: v) =
        [(DecodeURIComponent k, DecodeURIComponent v)]) ∧
    (∀ l, DecodeURIComponent (37 :: 50 :: 54 :: l) = 38 :: DecodeURIComponent l) ∧
    (∀ l, DecodeURIComponent (37 :: 51 :: 68 :: l) = 61 :: DecodeURIComponent l) ∧
    (∀ l, DecodeURIComponent (43 :: l) = 32 :: DecodeURIComponent l) := by
  refine ⟨queryPairs_single, ?_, ?_, decode_plus⟩
  · intro l
    rw [decode_pct, if_pos (by decide)]
    have h38 : (((HEX_TABLE 50).toNat <<< 4) ||| (HEX_TABLE 54).toNat) = 38 := by
      decide
    rw [h38]
  · intro l
    rw [decode_pct, if_pos (by decide)]
    have h61 : (((HEX_TABLE 51).toNat <<< 4) ||| (HEX_TABLE 68).toNat) = 61 := by
      decide
    rw [h61]

/-- C10 (witness): the pair `a%26b=c%3Dd+e` decodes to key `a&b` and
value `c=d e` as a single pair. -/
theorem claim_C10_witness :
    (38 : Nat) ∉ ([97, 37, 50, 54, 98] : List Nat) ∧
    (61 : Nat) ∉ ([97, 37, 50, 54, 98] : List Nat) ∧
    (38 : Nat) ∉ ([99, 37, 51, 68, 100, 43, 101] : List Nat) ∧
    ([97, 37, 50, 54, 98] : List Nat) ≠ [] ∧
    queryPairs ([97, 37, 50, 54, 98] ++ 61 :: [99, 37, 51, 68, 100, 43, 101]) =
      [(DecodeURIComponent [97, 37, 50, 54, 98],
        DecodeURIComponent [99, 37, 51, 68, 100, 43, 101])] ∧
    DecodeURIComponent [97, 37, 50, 54, 98] = [97, 38, 98] ∧
    DecodeURIComponent [99, 37, 51, 68, 100, 43, 101] = [99, 61, 100, 32, 101] :=
  ⟨by decide, by decide, by decide, by decide,
    claim_C10_decode_after_split.1 [97, 37, 50, 54, 98]
      [99, 37, 51, 68, 100, 43, 101] (by decide) (by decide) (by decide)
      (by decide),
    by decide, by decide⟩

end Vibe
